import Mathlib

/-!
Verification development for the planar half-edge mesh engine of the
OpenSeesPy_Building_Modeler repository and its collection/load bookkeeping.

The repository's `src/osmg/gen/mesh_shapes.py` drives a mesh pipeline
(`define_halfedges`, `obtain_closed_loops`, `orient_loops`, `sanity_checks`,
`Mesh`) that lives in the repository's `mesh` module, which is not among the
provided source files; those parts are modelled from the specification, as
marked on each definition.  Everything in `mesh_shapes.py`, `load_case.py`
and `core/osmg_collections.py` is embedded directly from the source.

Conventions of the embedding:
* a Vertex is identified by its index into a coordinate list (the engine
  treats each Vertex instance as distinct, so positional identity is an
  index, not a coordinate pair);
* an Edge is a pair of vertex indices; the edge list is a `List (ℕ × ℕ)`;
* the two half-edges of edge `i` carry ids `2*i` (traversal v1 → v2) and
  `2*i + 1` (traversal v2 → v1), so twins differ in the last bit;
* coordinates are taken in an arbitrary linear ordered field so that the
  rational instances stay executable while the circular/wide-flange shape
  generators can use real trigonometric functions.
-/

namespace Osmg

/-- EPSILON constant of `osmg.core.common`; its value 1.0e-6 is pinned by
`src/osmg/tests/core/test_common.py`. -/
def EPSILON {α : Type} [LinearOrderedField α] : α := 1 / 1000000

section HalfedgeStructure

/-- Total number of half-edge ids: two per edge. -/
def numHalfedges (edges : List (ℕ × ℕ)) : ℕ := 2 * edges.length

/-- Origin vertex of half-edge `h`: edge `h / 2` traversed forward when `h`
is even, backward when `h` is odd. -/
def originOf (edges : List (ℕ × ℕ)) (h : ℕ) : ℕ :=
  if h % 2 = 0 then (edges.getD (h / 2) (0, 0)).1 else (edges.getD (h / 2) (0, 0)).2

/-- Destination vertex of half-edge `h`. -/
def destOf (edges : List (ℕ × ℕ)) (h : ℕ) : ℕ :=
  if h % 2 = 0 then (edges.getD (h / 2) (0, 0)).2 else (edges.getD (h / 2) (0, 0)).1

/-- The complementary half-edge of the same edge. -/
def twinOf (h : ℕ) : ℕ := if h % 2 = 0 then h + 1 else h - 1

/-- All half-edge ids leaving vertex `v`. -/
def outgoingList (edges : List (ℕ × ℕ)) (v : ℕ) : List ℕ :=
  (List.range (numHalfedges edges)).filter (fun g => originOf edges g = v)

/-- Modelled from the spec: the half-edge builder's input contract.  "Input
edges must form one or more closed polylines; an edge list with a vertex of
degree ≠ 2 is malformed", and higher-degree junctions are rejected as
unsupported topology ("raise an unsupported-topology error rather than
guessing a resolution order for higher-degree junctions").  Every vertex in
use must have exactly two outgoing half-edges. -/
def wellFormed (edges : List (ℕ × ℕ)) : Prop :=
  ∀ h ∈ List.range (numHalfedges edges),
    (outgoingList edges (originOf edges h)).length = 2

instance (edges : List (ℕ × ℕ)) : Decidable (wellFormed edges) := by
  unfold wellFormed; infer_instance

/-- Modelled from the spec: `define_halfedges` of the missing `mesh` module.
"Given a list of Edges (each referencing two Vertices), produce the complete
set of half-edges with their twins and next-pointers resolved"; "a vertex
with degree 0 or 1 (a dangling edge) signals a malformed-input error".  The
half-edges are returned as the list of their ids; twins and next pointers
are the derived functions `twinOf` and `nextOf`. -/
def define_halfedges (edges : List (ℕ × ℕ)) : Except String (List ℕ) :=
  if wellFormed edges then Except.ok (List.range (numHalfedges edges))
  else Except.error "malformed edge topology: a vertex has degree different from 2"

/-- Modelled from the spec: the next-pointer of a half-edge.  "The next
pointer of an incoming half-edge (one whose destination is this vertex) is
the outgoing half-edge (one whose origin is this vertex) that is not its own
twin" — for the supported degree-2 vertices the choice is unambiguous, so the
candidate list below is a singleton on well-formed input. -/
def nextOf (edges : List (ℕ × ℕ)) (h : ℕ) : ℕ :=
  ((outgoingList edges (destOf edges h)).filter (fun g => g ≠ twinOf h)).headD
    (numHalfedges edges)

/-- Modelled from the spec: one walk of the loop tracer.  "A loop is found by
starting from any not-yet-visited half-edge and repeatedly following `next`
until returning to the start."  The fuel argument bounds the walk; the walk
of a well-formed structure returns to its start within `numHalfedges` steps. -/
def traceFrom (edges : List (ℕ × ℕ)) (start : ℕ) : ℕ → ℕ → List ℕ
  | 0, _ => []
  | fuel + 1, cur =>
    cur :: (if nextOf edges cur = start then [] else traceFrom edges start fuel (nextOf edges cur))

/-- Modelled from the spec: `obtain_closed_loops` of the missing `mesh`
module.  "Iterates over all half-edges in a stable order … starting from any
not-yet-visited half-edge", collecting each traced loop. -/
def obtain_closed_loops (edges : List (ℕ × ℕ)) (halfedges : List ℕ) : List (List ℕ) :=
  halfedges.foldl
    (fun acc h =>
      if h ∈ acc.flatten then acc else acc ++ [traceFrom edges h (numHalfedges edges) h])
    []

end HalfedgeStructure

section Classification

variable {α : Type} [LinearOrderedField α]

/-- Cross product of two coordinate pairs, the shoelace building block. -/
def cross (p q : α × α) : α := p.1 * q.2 - q.1 * p.2

/-- Shoelace sum of a closed vertex sequence (twice the signed area): sum of
`cross` over consecutive pairs, including the wrap-around pair. -/
def shoelaceSum (l : List (α × α)) : α :=
  ∑ i ∈ Finset.range l.length, cross (l.getD i (0, 0)) (l.getD ((i + 1) % l.length) (0, 0))

/-- Signed area of a closed vertex sequence ("shoelace formula over its
vertex sequence"); positive means counterclockwise. -/
def signedArea (l : List (α × α)) : α := shoelaceSum l / 2

/-- Vertex sequence of a loop: the origin coordinates of its half-edges in
order. -/
def loopCoords (coords : List (α × α)) (edges : List (ℕ × ℕ)) (loop : List ℕ) :
    List (α × α) :=
  loop.map (fun h => coords.getD (originOf edges h) (0, 0))

/-- Signed area of a traced loop. -/
def polygon_area (coords : List (α × α)) (edges : List (ℕ × ℕ)) (loop : List ℕ) : α :=
  signedArea (loopCoords coords edges loop)

/-- Modelled from the spec: `orient_loops` of the missing `mesh` module.
The classifier computes "each loop's signed area via the shoelace formula
over its ordered vertex sequence"; loops with `|area|` below the epsilon
threshold are trivial, and the remaining loops split by winding.  The spec
names the counterclockwise positive-area loop the `external` shape boundary;
the call site in `generate` (mesh_shapes.py lines 29–31) unpacks the result
as `external, internal, trivial` and builds the Mesh from `internal[0]`, so
for `generate` to return the shape boundary — as the spec's data model,
section 8 properties and the generators' docstrings ("a loop of
counterclockwise halfedges") all require — the counterclockwise loops must
sit in the second component.  The triple is therefore (clockwise loops,
counterclockwise loops, trivial loops): the implementation's names record
which planar face a loop bounds (a clockwise walk bounds the unbounded
external face, a counterclockwise walk bounds the internal region), while
the spec's prose uses `external` for the shape boundary itself. -/
def orient_loops (coords : List (α × α)) (edges : List (ℕ × ℕ))
    (loops : List (List ℕ)) :
    List (List ℕ) × List (List ℕ) × List (List ℕ) :=
  ( loops.filter (fun L => polygon_area coords edges L ≤ -EPSILON),
    loops.filter (fun L => EPSILON ≤ polygon_area coords edges L),
    loops.filter (fun L => |polygon_area coords edges L| < EPSILON) )

/-- Modelled from the spec: `sanity_checks` of the missing `mesh` module,
with the argument list of its call site `sanity_checks(internal, trivial)`.
The checker "validates that (a) exactly one external loop was found" and —
for the supported simple shapes — that no hole is present; both reduce to
the first argument (the counterclockwise loops, among which the shape
boundary is expected to be unique, a region hole contributing a further
counterclockwise loop) being a singleton.  "Violations raise a descriptive,
shape-generator-attributable error rather than silently producing a wrong
mesh." -/
def sanity_checks (internal trivialLoops : List (List ℕ)) : Except String Unit :=
  if internal.length = 1 then Except.ok ()
  else
    Except.error
      ("loop classification error: expected exactly one external boundary loop, found "
        ++ toString internal.length ++ " counterclockwise loops alongside "
        ++ toString trivialLoops.length ++ " trivial loops")

/-- Modelled from the spec: "Mesh: the validated result — exactly one outer
loop (the shape boundary), stored with its vertices". -/
structure Mesh (α : Type) where
  vertices : List (α × α)
deriving DecidableEq, Repr

/-- The mesh pipeline of `mesh_shapes.generate` (src lines 26–31): build
half-edges, trace the closed loops, orient them, run the sanity checks, and
return the Mesh of the first counterclockwise loop (`Mesh(internal[0])`). -/
def generate (coords : List (α × α)) (edges : List (ℕ × ℕ)) :
    Except String (Mesh α) :=
  match define_halfedges edges with
  | Except.error e => Except.error e
  | Except.ok halfedges =>
    let loops := obtain_closed_loops edges halfedges
    let oriented := orient_loops coords edges loops
    -- `external, internal, trivial = orient_loops(loops)`: the source binds
    -- the components positionally; the first component (external) is unused
    let internal := oriented.2.1
    let trivialLoops := oriented.2.2
    match sanity_checks internal trivialLoops with
    | Except.error e => Except.error e
    | Except.ok _ =>
      match internal with
      | [] => Except.error "internal error: no counterclockwise loop to return"
      | L :: _ => Except.ok (Mesh.mk (loopCoords coords edges L))

end Classification

section ShapeGenerators

variable {α : Type} [LinearOrderedField α]

/-- `mesh_shapes.define_edges` (src lines 34–44): connect consecutive
vertices, then close the polygon from the last vertex back to the first.
(CPython raises an IndexError on an empty vertex list; the embedding returns
the empty edge list there and is only ever used on nonempty input.) -/
def define_edges (vertices : List (α × α)) : List (ℕ × ℕ) :=
  match vertices with
  | [] => []
  | _ :: _ =>
    (List.range (vertices.length - 1)).map (fun i => (i, i + 1))
      ++ [(vertices.length - 1, 0)]

/-- Vertex list of `mesh_shapes.rect_mesh` (src lines 197–202). -/
def rect_vertices (b h : α) : List (α × α) :=
  [(b / 2, h / 2), (-b / 2, h / 2), (-b / 2, -h / 2), (b / 2, -h / 2)]

/-- `mesh_shapes.rect_mesh` (src lines 187–204). -/
def rect_mesh (b h : α) : Except String (Mesh α) :=
  generate (rect_vertices b h) (define_edges (rect_vertices b h))

/-- Vertex list of `mesh_shapes.HSS_rect_mesh` (src lines 134–152), with the
seam offsets `e = EPSILON` at the cut along the bottom edge. -/
def HSS_rect_vertices (ht b t : α) : List (α × α) :=
  let a := b / 2
  let c := ht / 2
  let u := a - t
  let v := c - t
  let e : α := EPSILON
  [(e, -c), (a, -c), (a, c), (-a, c), (-a, -c), (-e, -c),
   (-e, -v), (-u, -v), (-u, v), (u, v), (u, -v), (e, -v)]

/-- `mesh_shapes.HSS_rect_mesh` (src lines 123–154). -/
def HSS_rect_mesh (ht b t : α) : Except String (Mesh α) :=
  generate (HSS_rect_vertices ht b t) (define_edges (HSS_rect_vertices ht b t))

/-- Consecutive vertices, wrap-around pair included, are pairwise distinct:
the property the seam epsilon offsets are meant to guarantee ("no zero-length
or duplicate edge"). -/
def noDupConsecutive (l : List (α × α)) : Prop :=
  List.Chain' (fun p q => p ≠ q) (l ++ l.take 1)

instance (l : List (ℚ × ℚ)) : Decidable (noDupConsecutive l) :=
  inferInstanceAs (Decidable (List.Chain' (fun p q => p ≠ q) (l ++ l.take 1)))

/-- Area-difference term of `mesh_shapes.w_mesh` (src line 63):
`target_area - (b*tf*2 + (h - 2*tf)*tw)`. -/
def w_area_diff (b h tw tf target_area : α) : α :=
  target_area - (b * tf * 2 + (h - 2 * tf) * tw)

/-- The guarded area difference of `w_mesh` (src lines 63–66): a negative
difference — "This happens for W14X426" — is replaced by the fallback 1e-4. -/
def w_area_diff_adjusted (b h tw tf target_area : α) : α :=
  if w_area_diff b h tw tf target_area < 0 then 1e-4
  else w_area_diff b h tw tf target_area

/-- Fillet radius of `w_mesh` (src line 68):
`np.sqrt(area_diff / (2.**2 - np.pi)) * 0.9565`. -/
noncomputable def w_r (b h tw tf target_area : ℝ) : ℝ :=
  Real.sqrt (w_area_diff_adjusted b h tw tf target_area / (2 ^ 2 - Real.pi)) * 0.9565

/-- `np.linspace a b n`: `n` evenly spaced samples from `a` to `b`, endpoint
included (`n = 0` gives the empty list, `n = 1` just the start point). -/
noncomputable def linspace (a b : ℝ) (n : ℕ) : List ℝ :=
  if n = 1 then [a]
  else (List.range n).map (fun k : ℕ => a + (b - a) * (k : ℝ) / ((n : ℝ) - 1))

/-- The normalized circle samples of `HSS_circ_mesh` (src lines 170–172):
`np.column_stack((np.sin(t), -np.cos(t)))` over `t = linspace 0 2π n_pts`. -/
noncomputable def circPoints (n_pts : ℕ) : List (ℝ × ℝ) :=
  (linspace 0 (2 * Real.pi) n_pts).map (fun t => (Real.sin t, -Real.cos t))

/-- Seam perturbation of `HSS_circ_mesh`: add `e` to the first point's first
coordinate and subtract `e` from the last point's first coordinate (for a
single point numpy applies both, leaving it unchanged). -/
def seamPerturb (e : ℝ) (pts : List (ℝ × ℝ)) : List (ℝ × ℝ) :=
  pts.mapIdx (fun i p =>
    if i = 0 then (if pts.length = 1 then p else (p.1 + e, p.2))
    else if i = pts.length - 1 then (p.1 - e, p.2) else p)

/-- Vertex list of `mesh_shapes.HSS_circ_mesh` (src lines 169–182): the
outer ring is the normalized circle scaled by `od`, the inner ring the
normalized circle scaled by `od - tdes` and reversed (`np.flip(..., axis=0)`),
each with its seam coordinates offset by `EPSILON`. -/
noncomputable def HSS_circ_vertices (od tdes : ℝ) (n_pts : ℕ) : List (ℝ × ℝ) :=
  let e : ℝ := EPSILON
  let pts_outer :=
    seamPerturb e ((circPoints n_pts).map (fun p => (p.1 * od, p.2 * od)))
  let pts_inner :=
    seamPerturb (-e)
      (((circPoints n_pts).map (fun p => (p.1 * (od - tdes), p.2 * (od - tdes)))).reverse)
  pts_outer ++ pts_inner

/-- `mesh_shapes.HSS_circ_mesh` (src lines 157–184). -/
noncomputable def HSS_circ_mesh (od tdes : ℝ) (n_pts : ℕ) : Except String (Mesh ℝ) :=
  generate (HSS_circ_vertices od tdes n_pts) (define_edges (HSS_circ_vertices od tdes n_pts))

/-- Distance of a coordinate pair from the origin. -/
noncomputable def distOrigin (p : ℝ × ℝ) : ℝ := Real.sqrt (p.1 ^ 2 + p.2 ^ 2)

end ShapeGenerators

section SnapPoints

variable {α : Type} [LinearOrderedField α]

/-- Modelled from the spec: `Mesh.bounding_box`, the "min/max of both
coordinates", flattened as `(z_min, y_min, z_max, y_max)` exactly as
`generic_snap_points` (src line 213) reads it. -/
def bounding_box (m : Mesh α) : α × α × α × α :=
  match m.vertices with
  | [] => (0, 0, 0, 0)
  | p :: rest =>
    (rest.foldl (fun acc q => min acc q.1) p.1,
     rest.foldl (fun acc q => min acc q.2) p.2,
     rest.foldl (fun acc q => max acc q.1) p.1,
     rest.foldl (fun acc q => max acc q.2) p.2)

/-- The snap-point table of `mesh_shapes.generic_snap_points`. -/
structure SnapPoints (α : Type) where
  centroid : α × α
  top_center : α × α
  top_left : α × α
  top_right : α × α
  center_left : α × α
  center_right : α × α
  bottom_center : α × α
  bottom_left : α × α
  bottom_right : α × α
deriving DecidableEq, Repr

/-- `mesh_shapes.generic_snap_points` (src lines 207–224): every snap point
is the negation of the corresponding bounding-box point. -/
def generic_snap_points (m : Mesh α) : SnapPoints α :=
  match bounding_box m with
  | (z_min, y_min, z_max, y_max) =>
    { centroid := (-(0 : α), -(0 : α))
      top_center := (-(0 : α), -y_max)
      top_left := (-z_min, -y_max)
      top_right := (-z_max, -y_max)
      center_left := (-z_min, -(0 : α))
      center_right := (-z_max, -(0 : α))
      bottom_center := (-(0 : α), -y_min)
      bottom_left := (-z_min, -y_min)
      bottom_right := (-z_max, -y_min) }

end SnapPoints

section HalfedgeLemmas

/-- The twin map is an involution. -/
lemma twinOf_twinOf (h : ℕ) : twinOf (twinOf h) = h := by
  unfold twinOf
  split <;> split <;> omega

lemma twinOf_ne (h : ℕ) : twinOf h ≠ h := by
  unfold twinOf
  split <;> omega

lemma twinOf_lt {edges : List (ℕ × ℕ)} {h : ℕ} (hh : h < numHalfedges edges) :
    twinOf h < numHalfedges edges := by
  unfold twinOf
  unfold numHalfedges at *
  split <;> omega

lemma twinOf_div_two (h : ℕ) : twinOf h / 2 = h / 2 := by
  unfold twinOf
  split <;> omega

lemma originOf_twinOf (edges : List (ℕ × ℕ)) (h : ℕ) :
    originOf edges (twinOf h) = destOf edges h := by
  unfold originOf destOf
  rw [twinOf_div_two]
  unfold twinOf
  rcases Nat.mod_two_eq_zero_or_one h with h2 | h2
  · have h1 : (h + 1) % 2 = 1 := by omega
    simp [h2, h1]
  · have h1 : (h - 1) % 2 = 0 := by omega
    simp [h2, h1]

lemma destOf_twinOf (edges : List (ℕ × ℕ)) (h : ℕ) :
    destOf edges (twinOf h) = originOf edges h := by
  conv_rhs => rw [← twinOf_twinOf h, originOf_twinOf]

lemma mem_outgoingList {edges : List (ℕ × ℕ)} {v g : ℕ} :
    g ∈ outgoingList edges v ↔ g < numHalfedges edges ∧ originOf edges g = v := by
  simp [outgoingList, List.mem_filter, List.mem_range]

lemma nodup_outgoingList (edges : List (ℕ × ℕ)) (v : ℕ) :
    (outgoingList edges v).Nodup :=
  (List.nodup_range _).filter _

/-- A nodup two-element list with a member: removing it leaves a singleton. -/
lemma filter_ne_pair {l : List ℕ} (hn : l.Nodup) (hl : l.length = 2) {a : ℕ}
    (ha : a ∈ l) :
    ∃ g, l.filter (fun x => x ≠ a) = [g] ∧ g ∈ l ∧ g ≠ a := by
  match l, hl with
  | [x, y], _ =>
    have hxy : x ≠ y := by simp at hn; exact hn
    rcases List.mem_pair.mp ha with rfl | rfl
    · have hya : y ≠ a := fun hya => hxy hya.symm
      refine ⟨y, ?_, by simp, hya⟩
      simp [List.filter, hya]
    · exact ⟨x, by simp [List.filter, hxy], by simp, hxy⟩

/-- In a two-element list, two members that both avoid a third member are
equal. -/
lemma eq_of_mem_pair_ne {l : List ℕ} (hl : l.length = 2) {g p q : ℕ}
    (hg : g ∈ l) (hp : p ∈ l) (hq : q ∈ l) (hpg : p ≠ g) (hqg : q ≠ g) :
    p = q := by
  match l, hl with
  | [x, y], _ =>
    rcases List.mem_pair.mp hg with rfl | rfl
    · rcases List.mem_pair.mp hp with rfl | rfl
      · exact absurd rfl hpg
      · rcases List.mem_pair.mp hq with rfl | rfl
        · exact absurd rfl hqg
        · rfl
    · rcases List.mem_pair.mp hp with rfl | rfl
      · rcases List.mem_pair.mp hq with rfl | rfl
        · rfl
        · exact absurd rfl hqg
      · exact absurd rfl hpg

lemma wellFormed_degree {edges : List (ℕ × ℕ)} (wf : wellFormed edges) {h : ℕ}
    (hh : h < numHalfedges edges) :
    (outgoingList edges (originOf edges h)).length = 2 :=
  wf h (List.mem_range.mpr hh)

/-- Characterization of the next-pointer on well-formed input: it is the
unique half-edge leaving the destination that is not the twin. -/
lemma nextOf_spec {edges : List (ℕ × ℕ)} (wf : wellFormed edges) {h : ℕ}
    (hh : h < numHalfedges edges) :
    originOf edges (nextOf edges h) = destOf edges h ∧
      nextOf edges h ≠ twinOf h ∧
      nextOf edges h < numHalfedges edges ∧
      ∀ g, g < numHalfedges edges → originOf edges g = destOf edges h →
        g ≠ twinOf h → g = nextOf edges h := by
  have htw : twinOf h < numHalfedges edges := twinOf_lt hh
  have htwmem : twinOf h ∈ outgoingList edges (destOf edges h) :=
    mem_outgoingList.mpr ⟨htw, originOf_twinOf edges h⟩
  have hdeg : (outgoingList edges (destOf edges h)).length = 2 := by
    have := wellFormed_degree wf htw
    rwa [originOf_twinOf] at this
  obtain ⟨g, hfil, hgmem, hgne⟩ :=
    filter_ne_pair (nodup_outgoingList edges (destOf edges h)) hdeg htwmem
  have hnext : nextOf edges h = g := by
    unfold nextOf
    rw [hfil]
    rfl
  obtain ⟨hglt, hgorig⟩ := mem_outgoingList.mp hgmem
  refine ⟨by rw [hnext]; exact hgorig, by rw [hnext]; exact hgne, by rw [hnext]; exact hglt, ?_⟩
  intro g' hg'lt hg'orig hg'ne
  have : g' ∈ List.filter (fun x => x ≠ twinOf h) (outgoingList edges (destOf edges h)) := by
    rw [List.mem_filter]
    exact ⟨mem_outgoingList.mpr ⟨hg'lt, hg'orig⟩, by simpa using hg'ne⟩
  rw [hfil] at this
  rw [hnext]
  simpa using this

lemma nextOf_lt {edges : List (ℕ × ℕ)} (wf : wellFormed edges) {h : ℕ}
    (hh : h < numHalfedges edges) : nextOf edges h < numHalfedges edges :=
  (nextOf_spec wf hh).2.2.1

/-- The next-pointer is injective on the half-edge ids: two half-edges with
the same successor share their destination, and in its two outgoing
half-edges their twins must coincide. -/
lemma nextOf_injOn {edges : List (ℕ × ℕ)} (wf : wellFormed edges) {a b : ℕ}
    (ha : a < numHalfedges edges) (hb : b < numHalfedges edges)
    (heq : nextOf edges a = nextOf edges b) : a = b := by
  obtain ⟨hoa, hna, hlt, _⟩ := nextOf_spec wf ha
  obtain ⟨hob, hnb, _, _⟩ := nextOf_spec wf hb
  have hdest : destOf edges a = destOf edges b := by
    rw [← hoa, heq]
    exact hob
  have htwa : twinOf a ∈ outgoingList edges (destOf edges a) :=
    mem_outgoingList.mpr ⟨twinOf_lt ha, originOf_twinOf edges a⟩
  have htwb : twinOf b ∈ outgoingList edges (destOf edges a) := by
    rw [hdest]
    exact mem_outgoingList.mpr ⟨twinOf_lt hb, originOf_twinOf edges b⟩
  have hgmem : nextOf edges a ∈ outgoingList edges (destOf edges a) :=
    mem_outgoingList.mpr ⟨hlt, hoa⟩
  have hdeg : (outgoingList edges (destOf edges a)).length = 2 := by
    have := wellFormed_degree wf (twinOf_lt ha)
    rwa [originOf_twinOf] at this
  have htw_eq : twinOf a = twinOf b :=
    eq_of_mem_pair_ne hdeg hgmem htwa htwb (fun hc => hna hc.symm)
      (fun hc => hnb (by rw [← heq]; exact hc.symm))
  have := congrArg twinOf htw_eq
  rwa [twinOf_twinOf, twinOf_twinOf] at this

end HalfedgeLemmas

section TracerLemmas

lemma iterate_nextOf_lt {edges : List (ℕ × ℕ)} (wf : wellFormed edges) {h : ℕ}
    (hh : h < numHalfedges edges) (k : ℕ) :
    (nextOf edges)^[k] h < numHalfedges edges := by
  induction k with
  | zero => simpa using hh
  | succ k ih =>
    rw [Function.iterate_succ_apply']
    exact nextOf_lt wf ih

lemma iterate_nextOf_injOn {edges : List (ℕ × ℕ)} (wf : wellFormed edges) (k : ℕ)
    {a b : ℕ} (ha : a < numHalfedges edges) (hb : b < numHalfedges edges)
    (heq : (nextOf edges)^[k] a = (nextOf edges)^[k] b) : a = b := by
  induction k generalizing a b with
  | zero => simpa using heq
  | succ k ih =>
    rw [Function.iterate_succ_apply, Function.iterate_succ_apply] at heq
    exact nextOf_injOn wf ha hb (ih (nextOf_lt wf ha) (nextOf_lt wf hb) heq)

/-- Every half-edge is periodic under the next-pointer within
`numHalfedges` steps (pigeonhole plus injectivity). -/
lemma exists_period {edges : List (ℕ × ℕ)} (wf : wellFormed edges) {h : ℕ}
    (hh : h < numHalfedges edges) :
    ∃ r, 0 < r ∧ r ≤ numHalfedges edges ∧ (nextOf edges)^[r] h = h := by
  have hmap : ∀ i ∈ Finset.range (numHalfedges edges + 1),
      (nextOf edges)^[i] h ∈ Finset.range (numHalfedges edges) := by
    intro i _
    exact Finset.mem_range.mpr (iterate_nextOf_lt wf hh i)
  have hcard : (Finset.range (numHalfedges edges)).card
      < (Finset.range (numHalfedges edges + 1)).card := by
    simp
  obtain ⟨x, hx, y, hy, hxy, hfxy⟩ :=
    Finset.exists_ne_map_eq_of_card_lt_of_maps_to hcard hmap
  rw [Finset.mem_range] at hx hy
  rcases hxy.lt_or_lt with hlt | hlt
  · refine ⟨y - x, by omega, by omega, ?_⟩
    have hy' : (nextOf edges)^[x] ((nextOf edges)^[y - x] h) = (nextOf edges)^[x] h := by
      rw [← Function.iterate_add_apply, show x + (y - x) = y by omega]
      exact hfxy.symm
    exact iterate_nextOf_injOn wf x (iterate_nextOf_lt wf hh _) hh hy'
  · refine ⟨x - y, by omega, by omega, ?_⟩
    have hx' : (nextOf edges)^[y] ((nextOf edges)^[x - y] h) = (nextOf edges)^[y] h := by
      rw [← Function.iterate_add_apply, show y + (x - y) = x by omega]
      exact hfxy
    exact iterate_nextOf_injOn wf y (iterate_nextOf_lt wf hh _) hh hx'

lemma minimalPeriod_pos {edges : List (ℕ × ℕ)} (wf : wellFormed edges) {h : ℕ}
    (hh : h < numHalfedges edges) :
    0 < Function.minimalPeriod (nextOf edges) h := by
  obtain ⟨r, hr0, _, hrfix⟩ := exists_period wf hh
  exact Function.minimalPeriod_pos_of_mem_periodicPts ⟨r, hr0, hrfix⟩

lemma minimalPeriod_le {edges : List (ℕ × ℕ)} (wf : wellFormed edges) {h : ℕ}
    (hh : h < numHalfedges edges) :
    Function.minimalPeriod (nextOf edges) h ≤ numHalfedges edges := by
  obtain ⟨r, hr0, hrle, hrfix⟩ := exists_period wf hh
  exact le_trans (Function.IsPeriodicPt.minimalPeriod_le hr0 hrfix) hrle

/-- Iterates below the minimal period are pairwise distinct. -/
lemma iterate_ne_of_lt_minimalPeriod {edges : List (ℕ × ℕ)} (wf : wellFormed edges)
    {h : ℕ} (hh : h < numHalfedges edges) {i j : ℕ} (hij : i < j)
    (hj : j < Function.minimalPeriod (nextOf edges) h) :
    (nextOf edges)^[i] h ≠ (nextOf edges)^[j] h := by
  intro heq
  have hfix : (nextOf edges)^[j - i] h = h := by
    have : (nextOf edges)^[i] ((nextOf edges)^[j - i] h) = (nextOf edges)^[i] h := by
      rw [← Function.iterate_add_apply, show i + (j - i) = j by omega]
      exact heq.symm
    exact iterate_nextOf_injOn wf i (iterate_nextOf_lt wf hh _) hh this
  have := Function.IsPeriodicPt.minimalPeriod_le (n := j - i) (by omega) hfix
  omega

/-- The fueled walk from a half-edge, given sufficient fuel, is exactly the
orbit segment from the current iterate up to the minimal period. -/
lemma traceFrom_eq_orbit {edges : List (ℕ × ℕ)} (wf : wellFormed edges) {h : ℕ}
    (hh : h < numHalfedges edges) :
    ∀ fuel i, i < Function.minimalPeriod (nextOf edges) h →
      Function.minimalPeriod (nextOf edges) h - i ≤ fuel →
      traceFrom edges h fuel ((nextOf edges)^[i] h) =
        (List.range (Function.minimalPeriod (nextOf edges) h - i)).map
          (fun k => (nextOf edges)^[i + k] h) := by
  intro fuel
  induction fuel with
  | zero => intro i hi hfuel; omega
  | succ fuel ih =>
    intro i hi hfuel
    have hnext : nextOf edges ((nextOf edges)^[i] h) = (nextOf edges)^[i + 1] h :=
      (Function.iterate_succ_apply' (nextOf edges) i h).symm
    by_cases hc : (nextOf edges)^[i + 1] h = h
    · have hip : i + 1 = Function.minimalPeriod (nextOf edges) h := by
        by_contra hne
        have h1 : i + 1 < Function.minimalPeriod (nextOf edges) h := by omega
        exact iterate_ne_of_lt_minimalPeriod wf hh (Nat.succ_pos i) h1 (by simpa using hc.symm)
      have hone : Function.minimalPeriod (nextOf edges) h - i = 1 := by omega
      have hcond : nextOf edges ((nextOf edges)^[i] h) = h := by rw [hnext]; exact hc
      rw [traceFrom, if_pos hcond, hone]
      rw [show List.range 1 = [0] from rfl]
      simp
    · have hip : i + 1 < Function.minimalPeriod (nextOf edges) h := by
        rcases Nat.lt_or_ge (i + 1) (Function.minimalPeriod (nextOf edges) h) with hlt | hge
        · exact hlt
        · exfalso
          have : i + 1 = Function.minimalPeriod (nextOf edges) h := by omega
          rw [this] at hc
          exact hc Function.iterate_minimalPeriod
      have hrec := ih (i + 1) hip (by omega)
      simp only [traceFrom, hnext, if_neg hc, hrec]
      rw [show Function.minimalPeriod (nextOf edges) h - i
            = (Function.minimalPeriod (nextOf edges) h - (i + 1)) + 1 by omega,
        List.range_succ_eq_map]
      simp only [List.map_cons, List.map_map, Nat.add_zero]
      refine congrArg (fun l => (nextOf edges)^[i] h :: l) ?_
      refine List.map_congr_left ?_
      intro k _
      simp only [Function.comp_apply, Nat.succ_eq_add_one]
      rw [show i + (k + 1) = i + 1 + k by omega]

/-- The traced loop of a half-edge is its full orbit under the next-pointer. -/
lemma traceFrom_self {edges : List (ℕ × ℕ)} (wf : wellFormed edges) {h : ℕ}
    (hh : h < numHalfedges edges) :
    traceFrom edges h (numHalfedges edges) h =
      (List.range (Function.minimalPeriod (nextOf edges) h)).map
        (fun k => (nextOf edges)^[k] h) := by
  have h0 := traceFrom_eq_orbit wf hh (numHalfedges edges) 0
    (minimalPeriod_pos wf hh) (by simpa using minimalPeriod_le wf hh)
  simpa using h0

/-- Structural facts about a traced loop: no duplicates, contains its start,
stays in range, is closed under the next-pointer, and reaches back to its
start. -/
lemma traceLoop_spec {edges : List (ℕ × ℕ)} (wf : wellFormed edges) {h : ℕ}
    (hh : h < numHalfedges edges) :
    (traceFrom edges h (numHalfedges edges) h).Nodup ∧
      h ∈ traceFrom edges h (numHalfedges edges) h ∧
      (∀ x ∈ traceFrom edges h (numHalfedges edges) h, x < numHalfedges edges) ∧
      (∀ x ∈ traceFrom edges h (numHalfedges edges) h,
        nextOf edges x ∈ traceFrom edges h (numHalfedges edges) h) ∧
      (∀ x ∈ traceFrom edges h (numHalfedges edges) h,
        ∃ j, (nextOf edges)^[j] x = h) := by
  rw [traceFrom_self wf hh]
  set p := Function.minimalPeriod (nextOf edges) h with hp
  have hp0 : 0 < p := minimalPeriod_pos wf hh
  have hmem : ∀ x, (x ∈ (List.range p).map (fun k => (nextOf edges)^[k] h)
      ↔ ∃ k, k < p ∧ (nextOf edges)^[k] h = x) := by
    intro x
    simp [List.mem_map, List.mem_range]
    constructor
    · rintro ⟨k, hk, rfl⟩; exact ⟨k, hk, rfl⟩
    · rintro ⟨k, hk, rfl⟩; exact ⟨k, hk, rfl⟩
  refine ⟨?_, ?_, ?_, ?_, ?_⟩
  · refine List.Nodup.map_on ?_ (List.nodup_range p)
    intro i hi j hj hij
    rcases Nat.lt_trichotomy i j with hlt | heq | hlt
    · exact absurd hij (iterate_ne_of_lt_minimalPeriod wf hh hlt (List.mem_range.mp hj))
    · exact heq
    · exact absurd hij.symm (iterate_ne_of_lt_minimalPeriod wf hh hlt (List.mem_range.mp hi))
  · exact (hmem h).mpr ⟨0, hp0, by simp⟩
  · intro x hx
    obtain ⟨k, _, rfl⟩ := (hmem x).mp hx
    exact iterate_nextOf_lt wf hh k
  · intro x hx
    obtain ⟨k, hk, rfl⟩ := (hmem _).mp hx
    have hstep : nextOf edges ((nextOf edges)^[k] h) = (nextOf edges)^[k + 1] h :=
      (Function.iterate_succ_apply' (nextOf edges) k h).symm
    rw [hstep]
    by_cases hkp : k + 1 = p
    · refine (hmem _).mpr ⟨0, hp0, ?_⟩
      rw [hkp]
      simp [hp, Function.iterate_minimalPeriod]
    · exact (hmem _).mpr ⟨k + 1, by omega, rfl⟩
  · intro x hx
    obtain ⟨k, hk, rfl⟩ := (hmem x).mp hx
    refine ⟨p - k, ?_⟩
    rw [← Function.iterate_add_apply, show p - k + k = p by omega, hp]
    exact Function.iterate_minimalPeriod

lemma flatten_closed_iterate {edges : List (ℕ × ℕ)} {acc : List (List ℕ)}
    (hclosed : ∀ x ∈ acc.flatten, nextOf edges x ∈ acc.flatten) (j : ℕ) :
    ∀ x ∈ acc.flatten, (nextOf edges)^[j] x ∈ acc.flatten := by
  induction j with
  | zero => intro x hx; simpa using hx
  | succ j ih =>
    intro x hx
    rw [Function.iterate_succ_apply']
    exact hclosed _ (ih x hx)

/-- The loop-collecting fold keeps its accumulator duplicate-free, in range,
closed under the next-pointer, monotone, and covering every processed
half-edge. -/
lemma fold_loops_invariant {edges : List (ℕ × ℕ)} (wf : wellFormed edges) :
    ∀ (hs : List ℕ) (acc : List (List ℕ)),
      (∀ x ∈ hs, x < numHalfedges edges) →
      acc.flatten.Nodup →
      (∀ x ∈ acc.flatten, x < numHalfedges edges) →
      (∀ x ∈ acc.flatten, nextOf edges x ∈ acc.flatten) →
      ((hs.foldl (fun acc h =>
          if h ∈ acc.flatten then acc
          else acc ++ [traceFrom edges h (numHalfedges edges) h]) acc).flatten.Nodup ∧
        (∀ x ∈ (hs.foldl (fun acc h =>
          if h ∈ acc.flatten then acc
          else acc ++ [traceFrom edges h (numHalfedges edges) h]) acc).flatten,
            x < numHalfedges edges) ∧
        (∀ x ∈ acc.flatten, x ∈ (hs.foldl (fun acc h =>
          if h ∈ acc.flatten then acc
          else acc ++ [traceFrom edges h (numHalfedges edges) h]) acc).flatten) ∧
        (∀ x ∈ hs, x ∈ (hs.foldl (fun acc h =>
          if h ∈ acc.flatten then acc
          else acc ++ [traceFrom edges h (numHalfedges edges) h]) acc).flatten)) := by
  intro hs
  induction hs with
  | nil =>
    intro acc _ hnd hbound _
    exact ⟨hnd, hbound, fun x hx => hx, fun x hx => absurd hx (List.not_mem_nil x)⟩
  | cons h hs ih =>
    intro acc hhs hnd hbound hclosed
    simp only [List.foldl_cons]
    have hh : h < numHalfedges edges := hhs h (List.mem_cons_self h hs)
    by_cases hmem : h ∈ acc.flatten
    · rw [if_pos hmem]
      obtain ⟨rnd, rbound, rmono, rcover⟩ :=
        ih acc (fun x hx => hhs x (List.mem_cons_of_mem h hx)) hnd hbound hclosed
      refine ⟨rnd, rbound, rmono, ?_⟩
      intro x hx
      rcases List.mem_cons.mp hx with rfl | hx'
      · exact rmono x hmem
      · exact rcover x hx'
    · rw [if_neg hmem]
      obtain ⟨lnd, lself, lbound, lclosed, lreach⟩ := traceLoop_spec wf hh
      have hdisj : ∀ x ∈ acc.flatten, x ∉ traceFrom edges h (numHalfedges edges) h := by
        intro x hx hxl
        obtain ⟨j, hj⟩ := lreach x hxl
        exact hmem (hj ▸ flatten_closed_iterate hclosed j x hx)
      have hnd' : (acc ++ [traceFrom edges h (numHalfedges edges) h]).flatten.Nodup := by
        rw [List.flatten_append]
        simp only [List.flatten_cons, List.flatten_nil, List.append_nil]
        rw [List.nodup_append]
        exact ⟨hnd, lnd, hdisj⟩
      have hbound' : ∀ x ∈ (acc ++ [traceFrom edges h (numHalfedges edges) h]).flatten,
          x < numHalfedges edges := by
        intro x hx
        rw [List.flatten_append] at hx
        simp only [List.flatten_cons, List.flatten_nil, List.append_nil,
          List.mem_append] at hx
        rcases hx with hx | hx
        · exact hbound x hx
        · exact lbound x hx
      have hclosed' : ∀ x ∈ (acc ++ [traceFrom edges h (numHalfedges edges) h]).flatten,
          nextOf edges x ∈ (acc ++ [traceFrom edges h (numHalfedges edges) h]).flatten := by
        intro x hx
        rw [List.flatten_append] at hx ⊢
        simp only [List.flatten_cons, List.flatten_nil, List.append_nil,
          List.mem_append] at hx ⊢
        rcases hx with hx | hx
        · exact Or.inl (hclosed x hx)
        · exact Or.inr (lclosed x hx)
      obtain ⟨rnd, rbound, rmono, rcover⟩ :=
        ih (acc ++ [traceFrom edges h (numHalfedges edges) h])
          (fun x hx => hhs x (List.mem_cons_of_mem h hx)) hnd' hbound' hclosed'
      refine ⟨rnd, rbound, ?_, ?_⟩
      · intro x hx
        refine rmono x ?_
        rw [List.flatten_append]
        simp only [List.flatten_cons, List.flatten_nil, List.append_nil,
          List.mem_append]
        exact Or.inl hx
      · intro x hx
        rcases List.mem_cons.mp hx with rfl | hx'
        · refine rmono x ?_
          rw [List.flatten_append]
          simp only [List.flatten_cons, List.flatten_nil, List.append_nil,
            List.mem_append]
          exact Or.inr lself
        · exact rcover x hx'

/-- Partition property of the loop tracer: across all traced loops, the
half-edge ids are a permutation of all `2 × number_of_edges` ids — every
half-edge is traced exactly once. -/
lemma obtain_closed_loops_perm {edges : List (ℕ × ℕ)} (wf : wellFormed edges) :
    (obtain_closed_loops edges (List.range (numHalfedges edges))).flatten.Perm
      (List.range (numHalfedges edges)) := by
  unfold obtain_closed_loops
  obtain ⟨rnd, rbound, _, rcover⟩ :=
    fold_loops_invariant wf (List.range (numHalfedges edges)) []
      (fun x hx => List.mem_range.mp hx) (by simp) (by simp) (by simp)
  rw [List.perm_ext_iff_of_nodup rnd (List.nodup_range _)]
  intro a
  constructor
  · intro ha
    exact List.mem_range.mpr (rbound a ha)
  · intro ha
    exact rcover a ha

end TracerLemmas

section GenerateLemmas

variable {α : Type} [LinearOrderedField α]

lemma EPSILON_pos : (0 : α) < EPSILON := by norm_num [EPSILON]

lemma sanity_checks_ok_iff (internal trivialLoops : List (List ℕ)) :
    (∃ u, sanity_checks internal trivialLoops = Except.ok u) ↔ internal.length = 1 := by
  unfold sanity_checks
  constructor
  · rintro ⟨u, hu⟩
    by_contra hlen
    rw [if_neg hlen] at hu
    exact Except.noConfusion hu
  · intro hlen
    exact ⟨(), by rw [if_pos hlen]⟩

lemma mem_internal_iff {coords : List (α × α)} {edges : List (ℕ × ℕ)}
    {loops : List (List ℕ)} {L : List ℕ} :
    L ∈ (orient_loops coords edges loops).2.1 ↔
      L ∈ loops ∧ EPSILON ≤ polygon_area coords edges L := by
  simp [orient_loops, List.mem_filter]

lemma mem_external_iff {coords : List (α × α)} {edges : List (ℕ × ℕ)}
    {loops : List (List ℕ)} {L : List ℕ} :
    L ∈ (orient_loops coords edges loops).1 ↔
      L ∈ loops ∧ polygon_area coords edges L ≤ -EPSILON := by
  simp [orient_loops, List.mem_filter]

/-- What a successful run of `generate` pins down: the input passed the
half-edge builder, the classification produced a single counterclockwise
loop, and the Mesh holds exactly that loop's vertex sequence. -/
lemma generate_ok_spec {coords : List (α × α)} {edges : List (ℕ × ℕ)} {m : Mesh α}
    (hok : generate coords edges = Except.ok m) :
    wellFormed edges ∧
      ∃ L, (orient_loops coords edges
          (obtain_closed_loops edges (List.range (numHalfedges edges)))).2.1 = [L] ∧
        m = Mesh.mk (loopCoords coords edges L) := by
  unfold generate define_halfedges at hok
  by_cases hwf : wellFormed edges
  · rw [if_pos hwf] at hok
    simp only at hok
    refine ⟨hwf, ?_⟩
    rcases hsan : sanity_checks
        (orient_loops coords edges
          (obtain_closed_loops edges (List.range (numHalfedges edges)))).2.1
        (orient_loops coords edges
          (obtain_closed_loops edges (List.range (numHalfedges edges)))).2.2
      with e | u
    · rw [hsan] at hok
      exact Except.noConfusion hok
    · have hlen := (sanity_checks_ok_iff _ _).mp ⟨u, hsan⟩
      obtain ⟨L, hL⟩ := List.length_eq_one.mp hlen
      rw [hsan, hL] at hok
      refine ⟨L, hL, ?_⟩
      simp only at hok
      exact (Except.ok.injEq _ _ ▸ hok).symm
  · rw [if_neg hwf] at hok
    exact Except.noConfusion hok

/-- Converse: on well-formed input whose classification has exactly one
counterclockwise loop, `generate` succeeds. -/
lemma generate_ok_of {coords : List (α × α)} {edges : List (ℕ × ℕ)}
    (hwf : wellFormed edges)
    (hlen : (orient_loops coords edges
      (obtain_closed_loops edges (List.range (numHalfedges edges)))).2.1.length = 1) :
    ∃ m, generate coords edges = Except.ok m := by
  unfold generate define_halfedges
  rw [if_pos hwf]
  simp only
  obtain ⟨u, hsan⟩ := (sanity_checks_ok_iff _ _).mpr hlen
  obtain ⟨L, hL⟩ := List.length_eq_one.mp hlen
  rw [hsan, hL]
  exact ⟨Mesh.mk (loopCoords coords edges L), rfl⟩

end GenerateLemmas

section ClaimTheoremsPipeline

/-- C1: For every edge list that passes the half-edge builder, loop tracer,
loop classifier and sanity checker, the Mesh returned by `generate` is
constructed from the single external (outer, counterclockwise) boundary loop
produced by the classification, not from any clockwise (hole-side) loop: the
counterclockwise class is the singleton `[L]`, the mesh vertices are exactly
the vertex sequence of `L`, their signed area clears the counterclockwise
threshold, and the mesh vertices differ from the vertex sequence of every
clockwise-classified loop. -/
theorem C1_generate_returns_external_boundary {α : Type} [LinearOrderedField α]
    (coords : List (α × α)) (edges : List (ℕ × ℕ)) (m : Mesh α)
    (hok : generate coords edges = Except.ok m) :
    ∃ L,
      (orient_loops coords edges
        (obtain_closed_loops edges (List.range (numHalfedges edges)))).2.1 = [L] ∧
      m.vertices = loopCoords coords edges L ∧
      EPSILON ≤ signedArea m.vertices ∧
      ∀ L2 ∈ (orient_loops coords edges
          (obtain_closed_loops edges (List.range (numHalfedges edges)))).1,
        m.vertices ≠ loopCoords coords edges L2 := by
  obtain ⟨hwf, L, hL, hm⟩ := generate_ok_spec hok
  have hvert : m.vertices = loopCoords coords edges L := by rw [hm]
  have hLmem : L ∈ (orient_loops coords edges
      (obtain_closed_loops edges (List.range (numHalfedges edges)))).2.1 := by
    rw [hL]; exact List.mem_singleton_self L
  have harea : EPSILON ≤ polygon_area coords edges L := (mem_internal_iff.mp hLmem).2
  refine ⟨L, hL, hvert, ?_, ?_⟩
  · rw [hvert]
    exact harea
  · intro L2 hL2 hcontra
    have harea2 : polygon_area coords edges L2 ≤ -EPSILON := (mem_external_iff.mp hL2).2
    rw [hvert] at hcontra
    unfold polygon_area at harea harea2
    rw [← hcontra] at harea2
    have h0 : (0 : α) < EPSILON := EPSILON_pos
    linarith

/-- C2: With the missing sanity checker modelled from the spec, the check
inside `generate` enforces the three contract conditions on everything that
reaches it: (a) exactly one external (counterclockwise) boundary loop was
classified — `generate` succeeds exactly when that count is 1, raising a
descriptive error otherwise; (c) zero internal hole loops — a hole
contributes a further counterclockwise loop, so it is excluded by the same
count; and (b) every original half-edge appears in exactly one traced loop —
proved to hold unconditionally for every well-formed input (second
conjunct), so the tracer invariant can never be the failing condition. -/
theorem C2_sanity_checker_contract {α : Type} [LinearOrderedField α]
    (coords : List (α × α)) (edges : List (ℕ × ℕ)) (wf : wellFormed edges) :
    ((∃ m, generate coords edges = Except.ok m) ↔
      (orient_loops coords edges
        (obtain_closed_loops edges (List.range (numHalfedges edges)))).2.1.length = 1) ∧
    (obtain_closed_loops edges (List.range (numHalfedges edges))).flatten.Perm
      (List.range (numHalfedges edges)) := by
  constructor
  · constructor
    · rintro ⟨m, hok⟩
      obtain ⟨_, L, hL, _⟩ := generate_ok_spec hok
      rw [hL]
      rfl
    · intro hlen
      exact generate_ok_of wf hlen
  · exact obtain_closed_loops_perm wf

/-- C8: For every well-formed input edge list, the loops returned by the
tracer partition the half-edge set: the loop lengths sum to
`2 × number_of_edges`, no half-edge appears twice across the loops, and
every half-edge id appears in some loop. -/
theorem C8_halfedge_partition (edges : List (ℕ × ℕ)) (wf : wellFormed edges) :
    ((obtain_closed_loops edges (List.range (numHalfedges edges))).map
        List.length).sum = 2 * edges.length ∧
      (obtain_closed_loops edges (List.range (numHalfedges edges))).flatten.Nodup ∧
      ∀ g < 2 * edges.length,
        ∃ L ∈ obtain_closed_loops edges (List.range (numHalfedges edges)), g ∈ L := by
  have hperm := obtain_closed_loops_perm wf
  refine ⟨?_, ?_, ?_⟩
  · have hlen := hperm.length_eq
    rw [List.length_flatten, List.length_range] at hlen
    exact hlen
  · exact hperm.nodup_iff.mpr (List.nodup_range _)
  · intro g hg
    have : g ∈ (obtain_closed_loops edges (List.range (numHalfedges edges))).flatten :=
      hperm.mem_iff.mpr (List.mem_range.mpr hg)
    exact List.mem_flatten.mp this

end ClaimTheoremsPipeline

section ConcreteInputs

/-- The vertex list `rect_vertices 10 4`, used as a concrete test input. -/
def rectCoordsW : List (ℚ × ℚ) := [(5, 2), (-5, 2), (-5, -2), (5, -2)]

/-- The edge list `define_edges (rect_vertices 10 4)`. -/
def rectEdgesW : List (ℕ × ℕ) := [(0, 1), (1, 2), (2, 3), (3, 0)]

end ConcreteInputs

section ClaimC5

/-- C5: `rect_mesh 10 4` produces the Mesh of the counterclockwise rectangle
boundary; its external loop has signed area 40, its bounding box runs from
`(-5, -2)` to `(5, 2)`, and `generic_snap_points` returns centroid `(0, 0)`
and `top_right` `(-5, -2)` — the bounding-box corner `(z_max, y_max) = (5, 2)`
negated per the sign convention of the source. -/
theorem C5_rect_mesh_snap_points :
    ∃ m, rect_mesh (10 : ℚ) 4 = Except.ok m ∧
      signedArea m.vertices = 40 ∧
      bounding_box m = (-5, -2, 5, 2) ∧
      (generic_snap_points m).centroid = (0, 0) ∧
      (generic_snap_points m).top_right = (-5, -2) := by
  refine ⟨Mesh.mk rectCoordsW, ?_, ?_, ?_, ?_, ?_⟩
  · with_unfolding_all rfl
  · with_unfolding_all rfl
  · with_unfolding_all rfl
  · with_unfolding_all rfl
  · with_unfolding_all rfl

end ClaimC5

section PipelineWitnesses

/-- Witness for C1 at the rectangle input: the hypotheses of the theorem are
discharged by evaluating `generate` on `rect_vertices 10 4`. -/
theorem C1_witness :
    ∃ L,
      (orient_loops rectCoordsW rectEdgesW
        (obtain_closed_loops rectEdgesW (List.range (numHalfedges rectEdgesW)))).2.1
          = [L] ∧
      (Mesh.mk rectCoordsW).vertices = loopCoords rectCoordsW rectEdgesW L ∧
      EPSILON ≤ signedArea (Mesh.mk rectCoordsW).vertices ∧
      ∀ L2 ∈ (orient_loops rectCoordsW rectEdgesW
          (obtain_closed_loops rectEdgesW (List.range (numHalfedges rectEdgesW)))).1,
        (Mesh.mk rectCoordsW).vertices ≠ loopCoords rectCoordsW rectEdgesW L2 :=
  C1_generate_returns_external_boundary rectCoordsW rectEdgesW (Mesh.mk rectCoordsW)
    (by with_unfolding_all rfl)

/-- Witness for C2 at the rectangle input. -/
theorem C2_witness :
    ((∃ m, generate rectCoordsW rectEdgesW = Except.ok m) ↔
      (orient_loops rectCoordsW rectEdgesW
        (obtain_closed_loops rectEdgesW (List.range (numHalfedges rectEdgesW)))).2.1.length
          = 1) ∧
    (obtain_closed_loops rectEdgesW (List.range (numHalfedges rectEdgesW))).flatten.Perm
      (List.range (numHalfedges rectEdgesW)) :=
  C2_sanity_checker_contract rectCoordsW rectEdgesW (by decide)

/-- Witness for C8 at the rectangle input. -/
theorem C8_witness :
    ((obtain_closed_loops rectEdgesW (List.range (numHalfedges rectEdgesW))).map
        List.length).sum = 2 * rectEdgesW.length ∧
      (obtain_closed_loops rectEdgesW (List.range (numHalfedges rectEdgesW))).flatten.Nodup ∧
      ∀ g < 2 * rectEdgesW.length,
        ∃ L ∈ obtain_closed_loops rectEdgesW (List.range (numHalfedges rectEdgesW)),
          g ∈ L :=
  C8_halfedge_partition rectEdgesW (by decide)

end PipelineWitnesses

section ModToolkit

lemma mod_mul_mod_left (a b n : ℕ) : a % n * b % n = a * b % n := by
  conv_lhs => rw [Nat.mul_mod]
  rw [Nat.mod_mod_of_dvd _ (dvd_refl n), ← Nat.mul_mod]

/-- The unique residue stepping to `v` around the `n`-cycle: `(v + (n-1)) % n`
is the predecessor of `v`. -/
lemma cycle_pred_spec {n v : ℕ} (hv : v < n) :
    (v + (n - 1)) % n < n ∧ ((v + (n - 1)) % n + 1) % n = v ∧
      ∀ x, x < n → (x + 1) % n = v → x = (v + (n - 1)) % n := by
  have hn : 0 < n := by omega
  by_cases hv0 : v = 0
  · subst hv0
    have hpred : (0 + (n - 1)) % n = n - 1 := by
      rw [Nat.zero_add, Nat.mod_eq_of_lt (by omega)]
    refine ⟨by rw [hpred]; omega, ?_, ?_⟩
    · rw [hpred, show n - 1 + 1 = n by omega, Nat.mod_self]
    · intro x hx hx1
      rw [hpred]
      by_cases hxn : x + 1 = n
      · omega
      · rw [Nat.mod_eq_of_lt (by omega)] at hx1
        omega
  · have hpred : (v + (n - 1)) % n = v - 1 := by
      rw [show v + (n - 1) = (v - 1) + n by omega, Nat.add_mod_right,
        Nat.mod_eq_of_lt (by omega)]
    refine ⟨by rw [hpred]; omega, ?_, ?_⟩
    · rw [hpred, show v - 1 + 1 = v by omega, Nat.mod_eq_of_lt hv]
    · intro x hx hx1
      rw [hpred]
      by_cases hxn : x + 1 = n
      · rw [hxn, Nat.mod_self] at hx1
        omega
      · rw [Nat.mod_eq_of_lt (by omega)] at hx1
        omega

/-- Stepping the mod by one commutes with reducing first. -/
lemma mod_succ_mod (k n : ℕ) : (k % n + 1) % n = (k + 1) % n :=
  Nat.mod_add_mod k n 1

/-- The backward traversal hits every residue: multiplying the inverse step by
`n - 1` returns `j`. -/
lemma cycle_bwd_surjective {n j : ℕ} (hj : j < n) :
    ((n - j) % n * (n - 1)) % n = j := by
  rw [mod_mul_mod_left]
  obtain ⟨e, he⟩ : ∃ e, n = j + (e + 1) := ⟨n - j - 1, by omega⟩
  have h1 : n - j = e + 1 := by omega
  have h2 : n - 1 = j + e := by omega
  rw [h1, h2, show (e + 1) * (j + e) = n * e + j by rw [he]; ring,
    Nat.mul_add_mod, Nat.mod_eq_of_lt hj]

end ModToolkit

section CountingToolkit

lemma range_two_mul_flatMap (n : ℕ) :
    List.range (2 * n) = (List.range n).flatMap (fun i => [2 * i, 2 * i + 1]) := by
  induction n with
  | zero => rfl
  | succ n ih =>
    rw [show 2 * (n + 1) = (2 * n + 1) + 1 by omega, List.range_succ, List.range_succ,
      List.range_succ, List.flatMap_append, ← ih]
    simp

lemma countP_flatMap (p : ℕ → Bool) (f : ℕ → List ℕ) (l : List ℕ) :
    ((l.flatMap f).countP p) = (l.map (fun i => (f i).countP p)).sum := by
  induction l with
  | nil => rfl
  | cons x xs ih =>
    rw [List.flatMap_cons, List.countP_append, List.map_cons, List.sum_cons, ih]

lemma sum_map_ite_unique {l : List ℕ} (hn : l.Nodup) (q : ℕ → Prop)
    [DecidablePred q] {a : ℕ} (ha : a ∈ l) (hqa : q a)
    (huniq : ∀ x ∈ l, q x → x = a) :
    (l.map (fun i => if q i then 1 else 0)).sum = 1 := by
  induction l with
  | nil => exact absurd ha (List.not_mem_nil a)
  | cons x xs ih =>
    rw [List.map_cons, List.sum_cons]
    rcases List.mem_cons.mp ha with rfl | hxs
    · rw [if_pos hqa]
      have hzero : (xs.map (fun i => if q i then 1 else 0)).sum = 0 := by
        apply List.sum_eq_zero
        intro y hy
        rw [List.mem_map] at hy
        obtain ⟨z, hz, rfl⟩ := hy
        rw [if_neg]
        intro hqz
        have := huniq z (List.mem_cons_of_mem _ hz) hqz
        subst this
        exact (List.nodup_cons.mp hn).1 hz
      rw [hzero]
    · have hxa : x ≠ a := by
        intro hcontra
        subst hcontra
        exact (List.nodup_cons.mp hn).1 hxs
      rw [if_neg (fun hqx => hxa (huniq x (List.mem_cons_self x xs) hqx))]
      rw [ih (List.nodup_cons.mp hn).2 hxs
        (fun y hy hqy => huniq y (List.mem_cons_of_mem x hy) hqy)]

lemma sum_map_add (l : List ℕ) (f g : ℕ → ℕ) :
    (l.map (fun i => f i + g i)).sum = (l.map f).sum + (l.map g).sum := by
  induction l with
  | nil => rfl
  | cons x xs ih =>
    simp only [List.map_cons, List.sum_cons, ih]
    omega

end CountingToolkit

section CycleGraph

variable {α : Type} [LinearOrderedField α]

lemma define_edges_length {vertices : List (α × α)} (hne : vertices ≠ []) :
    (define_edges vertices).length = vertices.length := by
  match vertices, hne with
  | v :: rest, _ =>
    simp [define_edges]

lemma define_edges_getD {vertices : List (α × α)} {i : ℕ}
    (hi : i < vertices.length) :
    (define_edges vertices).getD i (0, 0) = (i, (i + 1) % vertices.length) := by
  have hne : vertices ≠ [] := by
    intro hcontra
    rw [hcontra] at hi
    simp at hi
  match vertices, hne with
  | v :: rest, _ =>
    have hunfold : define_edges (v :: rest)
        = (List.range ((v :: rest).length - 1)).map (fun i => (i, i + 1))
          ++ [((v :: rest).length - 1, 0)] := rfl
    set n := (v :: rest).length with hn
    have hn1 : 1 ≤ n := by simp [hn]
    rw [hunfold]
    by_cases hcase : i < n - 1
    · rw [List.getD_append _ _ _ _ (by simpa using hcase)]
      have hmap : ((List.range (n - 1)).map
          (fun i => ((i : ℕ), i + 1))).getD i ((0 : ℕ), (0 : ℕ)) = (i, i + 1) := by
        rw [List.getD_eq_getElem _ _ (by simpa using hcase)]
        rw [List.getElem_map, List.getElem_range]
      rw [hmap]
      have : (i + 1) % n = i + 1 := Nat.mod_eq_of_lt (by omega)
      rw [this]
    · have hieq : i = n - 1 := by omega
      rw [List.getD_append_right _ _ _ _ (by simp; omega)]
      have hidx : i - ((List.range (n - 1)).map (fun i => ((i : ℕ), i + 1))).length = 0 := by
        simp [hieq]
      rw [hidx]
      have hmod : (i + 1) % n = 0 := by
        rw [hieq, show n - 1 + 1 = n by omega, Nat.mod_self]
      rw [hmod, hieq]
      rfl

lemma cycle_originOf_fwd {vertices : List (α × α)} {i : ℕ}
    (hi : i < vertices.length) :
    originOf (define_edges vertices) (2 * i) = i := by
  unfold originOf
  rw [if_pos (Nat.mul_mod_right 2 i), show 2 * i / 2 = i by omega,
    define_edges_getD hi]

lemma cycle_destOf_fwd {vertices : List (α × α)} {i : ℕ}
    (hi : i < vertices.length) :
    destOf (define_edges vertices) (2 * i) = (i + 1) % vertices.length := by
  unfold destOf
  rw [if_pos (Nat.mul_mod_right 2 i), show 2 * i / 2 = i by omega,
    define_edges_getD hi]

lemma cycle_originOf_bwd {vertices : List (α × α)} {i : ℕ}
    (hi : i < vertices.length) :
    originOf (define_edges vertices) (2 * i + 1) = (i + 1) % vertices.length := by
  unfold originOf
  rw [if_neg (by omega : ¬(2 * i + 1) % 2 = 0), show (2 * i + 1) / 2 = i by omega,
    define_edges_getD hi]

lemma cycle_destOf_bwd {vertices : List (α × α)} {i : ℕ}
    (hi : i < vertices.length) :
    destOf (define_edges vertices) (2 * i + 1) = i := by
  unfold destOf
  rw [if_neg (by omega : ¬(2 * i + 1) % 2 = 0), show (2 * i + 1) / 2 = i by omega,
    define_edges_getD hi]

lemma cycle_numHalfedges {vertices : List (α × α)} (hne : vertices ≠ []) :
    numHalfedges (define_edges vertices) = 2 * vertices.length := by
  unfold numHalfedges
  rw [define_edges_length hne]

/-- Every vertex of the closed polygon has exactly two outgoing half-edges. -/
lemma cycle_outgoing_length {vertices : List (α × α)} {v : ℕ}
    (hv : v < vertices.length) :
    (outgoingList (define_edges vertices) v).length = 2 := by
  have hne : vertices ≠ [] := by
    intro hcontra
    rw [hcontra] at hv
    simp at hv
  set n := vertices.length with hn
  have hn1 : 1 ≤ n := by omega
  unfold outgoingList
  rw [← List.countP_eq_length_filter, cycle_numHalfedges hne, ← hn,
    range_two_mul_flatMap, countP_flatMap]
  have hcongr : (List.range n).map
      (fun i => List.countP (fun g => decide (originOf (define_edges vertices) g = v))
        [2 * i, 2 * i + 1])
      = (List.range n).map
        (fun i => (if (i + 1) % n = v then 1 else 0) + (if i = v then 1 else 0)) := by
    refine List.map_congr_left ?_
    intro i hi
    rw [List.mem_range] at hi
    rw [List.countP_cons, List.countP_cons, List.countP_nil]
    rw [cycle_originOf_fwd (hn ▸ hi), cycle_originOf_bwd (hn ▸ hi)]
    rw [← hn]
    by_cases h1 : i = v <;> by_cases h2 : (i + 1) % n = v <;>
      simp [h1, h2]
  rw [hcongr, sum_map_add]
  obtain ⟨hlt, hstep, huniq⟩ := cycle_pred_spec (n := n) hv
  rw [sum_map_ite_unique (List.nodup_range n) (fun i => i = v)
      (List.mem_range.mpr hv) rfl (fun x _ hx => hx),
    sum_map_ite_unique (List.nodup_range n) (fun i => (i + 1) % n = v)
      (List.mem_range.mpr hlt) hstep
      (fun x hx hqx => huniq x (List.mem_range.mp hx) hqx)]

lemma cycle_originOf_lt {vertices : List (α × α)} {h : ℕ}
    (hh : h < 2 * vertices.length) :
    originOf (define_edges vertices) h < vertices.length := by
  have hn1 : 1 ≤ vertices.length := by omega
  rcases Nat.mod_two_eq_zero_or_one h with h2 | h2
  · have : h = 2 * (h / 2) := by omega
    rw [this, cycle_originOf_fwd (by omega)]
    omega
  · have : h = 2 * (h / 2) + 1 := by omega
    rw [this, cycle_originOf_bwd (by omega)]
    exact Nat.mod_lt _ (by omega)

/-- The polygon edge list produced by `define_edges` passes the half-edge
builder: every vertex has degree exactly 2. -/
lemma cycle_wellFormed {vertices : List (α × α)} (hne : vertices ≠ []) :
    wellFormed (define_edges vertices) := by
  intro h hmem
  rw [List.mem_range, cycle_numHalfedges hne] at hmem
  exact cycle_outgoing_length (cycle_originOf_lt hmem)

/-- Forward half-edges chain around the polygon. -/
lemma cycle_nextOf_fwd {vertices : List (α × α)} {i : ℕ}
    (hi : i < vertices.length) :
    nextOf (define_edges vertices) (2 * i) = 2 * ((i + 1) % vertices.length) := by
  have hne : vertices ≠ [] := by
    intro hcontra
    rw [hcontra] at hi
    simp at hi
  set n := vertices.length with hn
  have hwf := cycle_wellFormed hne
  have hh : 2 * i < numHalfedges (define_edges vertices) := by
    rw [cycle_numHalfedges hne]
    omega
  have huniq := (nextOf_spec hwf hh).2.2.2
  refine (huniq (2 * ((i + 1) % n)) ?_ ?_ ?_).symm
  · rw [cycle_numHalfedges hne]
    have := Nat.mod_lt (i + 1) (y := n) (by omega)
    omega
  · rw [cycle_originOf_fwd (Nat.mod_lt _ (by omega)), cycle_destOf_fwd hi]
  · unfold twinOf
    rw [if_pos (Nat.mul_mod_right 2 i)]
    omega

/-- Backward half-edges chain around the polygon in the other direction. -/
lemma cycle_nextOf_bwd {vertices : List (α × α)} {i : ℕ}
    (hi : i < vertices.length) :
    nextOf (define_edges vertices) (2 * i + 1)
      = 2 * ((i + (vertices.length - 1)) % vertices.length) + 1 := by
  have hne : vertices ≠ [] := by
    intro hcontra
    rw [hcontra] at hi
    simp at hi
  set n := vertices.length with hn
  have hwf := cycle_wellFormed hne
  have hh : 2 * i + 1 < numHalfedges (define_edges vertices) := by
    rw [cycle_numHalfedges hne]
    omega
  have huniq := (nextOf_spec hwf hh).2.2.2
  obtain ⟨hlt, hstep, _⟩ := cycle_pred_spec (n := n) hi
  refine (huniq (2 * ((i + (n - 1)) % n) + 1) ?_ ?_ ?_).symm
  · rw [cycle_numHalfedges hne]
    omega
  · rw [cycle_originOf_bwd hlt, cycle_destOf_bwd hi, hstep]
  · unfold twinOf
    rw [if_neg (by omega : ¬(2 * i + 1) % 2 = 0)]
    omega

/-- Closed form of the forward orbit. -/
lemma cycle_iter_fwd {vertices : List (α × α)} (hne : vertices ≠ []) (k : ℕ) :
    (nextOf (define_edges vertices))^[k] 0 = 2 * (k % vertices.length) := by
  set n := vertices.length with hn
  have hn1 : 1 ≤ n := by
    rw [hn]
    exact List.length_pos.mpr hne
  induction k with
  | zero => simp [Nat.mod_eq_of_lt hn1]
  | succ k ih =>
    rw [Function.iterate_succ_apply', ih]
    rw [cycle_nextOf_fwd (Nat.mod_lt _ (by omega)), ← hn, mod_succ_mod]

/-- Closed form of the backward orbit. -/
lemma cycle_iter_bwd {vertices : List (α × α)} (hne : vertices ≠ []) (k : ℕ) :
    (nextOf (define_edges vertices))^[k] 1
      = 2 * ((k * (vertices.length - 1)) % vertices.length) + 1 := by
  set n := vertices.length with hn
  have hn1 : 1 ≤ n := by
    rw [hn]
    exact List.length_pos.mpr hne
  induction k with
  | zero => simp [Nat.mod_eq_of_lt hn1]
  | succ k ih =>
    rw [Function.iterate_succ_apply', ih]
    have h1 : (2 : ℕ) * ((k * (n - 1)) % n) + 1
        = 2 * ((k * (n - 1)) % n) + 1 := rfl
    rw [cycle_nextOf_bwd (Nat.mod_lt _ (by omega)), ← hn]
    rw [Nat.mod_add_mod, show k * (n - 1) + (n - 1) = (k + 1) * (n - 1) by ring]

lemma cycle_minimalPeriod_fwd {vertices : List (α × α)} (hne : vertices ≠ []) :
    Function.minimalPeriod (nextOf (define_edges vertices)) 0 = vertices.length := by
  set n := vertices.length with hn
  have hn1 : 1 ≤ n := by
    rw [hn]
    exact List.length_pos.mpr hne
  have hwf := cycle_wellFormed hne
  have h0 : (0 : ℕ) < numHalfedges (define_edges vertices) := by
    rw [cycle_numHalfedges hne]
    omega
  have hfix : (nextOf (define_edges vertices))^[n] 0 = 0 := by
    rw [cycle_iter_fwd hne, ← hn, Nat.mod_self]
  have hpos : 0 < Function.minimalPeriod (nextOf (define_edges vertices)) 0 :=
    minimalPeriod_pos hwf h0
  have hle : Function.minimalPeriod (nextOf (define_edges vertices)) 0 ≤ n :=
    Function.IsPeriodicPt.minimalPeriod_le (by omega) hfix
  have hiter := Function.iterate_minimalPeriod
    (f := nextOf (define_edges vertices)) (x := (0 : ℕ))
  rw [cycle_iter_fwd hne, ← hn] at hiter
  have hdvd : n ∣ Function.minimalPeriod (nextOf (define_edges vertices)) 0 :=
    Nat.dvd_of_mod_eq_zero (by omega)
  have := Nat.le_of_dvd hpos hdvd
  omega

lemma cycle_minimalPeriod_bwd {vertices : List (α × α)} (hne : vertices ≠ []) :
    Function.minimalPeriod (nextOf (define_edges vertices)) 1 = vertices.length := by
  set n := vertices.length with hn
  have hn1 : 1 ≤ n := by
    rw [hn]
    exact List.length_pos.mpr hne
  have hwf := cycle_wellFormed hne
  have h1 : (1 : ℕ) < numHalfedges (define_edges vertices) := by
    rw [cycle_numHalfedges hne]
    omega
  have hfix : (nextOf (define_edges vertices))^[n] 1 = 1 := by
    rw [cycle_iter_bwd hne, ← hn, Nat.mul_mod_right]
  have hpos : 0 < Function.minimalPeriod (nextOf (define_edges vertices)) 1 :=
    minimalPeriod_pos hwf h1
  have hle : Function.minimalPeriod (nextOf (define_edges vertices)) 1 ≤ n :=
    Function.IsPeriodicPt.minimalPeriod_le (by omega) hfix
  have hiter := Function.iterate_minimalPeriod
    (f := nextOf (define_edges vertices)) (x := (1 : ℕ))
  rw [cycle_iter_bwd hne, ← hn] at hiter
  have hmod : (Function.minimalPeriod (nextOf (define_edges vertices)) 1 * (n - 1)) % n
      = 0 := by omega
  have hcop : Nat.Coprime n (n - 1) := by
    have hc : Nat.Coprime (n - 1 + 1) (n - 1) := by simp [Nat.Coprime]
    rwa [show n - 1 + 1 = n by omega] at hc
  have hdvd : n ∣ Function.minimalPeriod (nextOf (define_edges vertices)) 1 :=
    hcop.dvd_of_dvd_mul_right (Nat.dvd_of_mod_eq_zero hmod)
  have := Nat.le_of_dvd hpos hdvd
  omega

/-- The forward traced loop: the even half-edge ids in order. -/
lemma cycle_trace_fwd {vertices : List (α × α)} (hne : vertices ≠ []) :
    traceFrom (define_edges vertices) 0 (numHalfedges (define_edges vertices)) 0
      = (List.range vertices.length).map (fun k => 2 * k) := by
  have hwf := cycle_wellFormed hne
  have hn1 : 1 ≤ vertices.length := List.length_pos.mpr hne
  have h0 : (0 : ℕ) < numHalfedges (define_edges vertices) := by
    rw [cycle_numHalfedges hne]
    omega
  rw [traceFrom_self hwf h0, cycle_minimalPeriod_fwd hne]
  refine List.map_congr_left ?_
  intro k hk
  rw [List.mem_range] at hk
  rw [cycle_iter_fwd hne, Nat.mod_eq_of_lt hk]

/-- The backward traced loop: the odd half-edge ids in backward order. -/
lemma cycle_trace_bwd {vertices : List (α × α)} (hne : vertices ≠ []) :
    traceFrom (define_edges vertices) 1 (numHalfedges (define_edges vertices)) 1
      = (List.range vertices.length).map
          (fun k => 2 * ((k * (vertices.length - 1)) % vertices.length) + 1) := by
  have hwf := cycle_wellFormed hne
  have hn1 : 1 ≤ vertices.length := List.length_pos.mpr hne
  have h1 : (1 : ℕ) < numHalfedges (define_edges vertices) := by
    rw [cycle_numHalfedges hne]
    omega
  rw [traceFrom_self hwf h1, cycle_minimalPeriod_bwd hne]
  refine List.map_congr_left ?_
  intro k hk
  rw [cycle_iter_bwd hne]

lemma range_split_two {m : ℕ} (hm : 2 ≤ m) :
    List.range m = 0 :: 1 :: (List.range (m - 2)).map (fun k => k + 2) := by
  obtain ⟨r, rfl⟩ : ∃ r, m = r + 2 := ⟨m - 2, by omega⟩
  rw [show r + 2 - 2 = r by omega]
  rw [List.range_succ_eq_map, List.range_succ_eq_map]
  simp only [List.map_cons, List.map_map]
  refine congrArg (fun l => 0 :: 1 :: l) ?_
  refine List.map_congr_left ?_
  intro k _
  simp only [Function.comp_apply]

lemma foldl_const_of_mem {edges : List (ℕ × ℕ)} :
    ∀ (l : List ℕ) (acc : List (List ℕ)),
      (∀ h ∈ l, h ∈ acc.flatten) →
      l.foldl (fun acc h =>
        if h ∈ acc.flatten then acc
        else acc ++ [traceFrom edges h (numHalfedges edges) h]) acc = acc := by
  intro l
  induction l with
  | nil => intro acc _; rfl
  | cons x xs ih =>
    intro acc hmem
    rw [List.foldl_cons, if_pos (hmem x (List.mem_cons_self x xs))]
    exact ih acc (fun h hh => hmem h (List.mem_cons_of_mem x hh))

/-- On the polygon input the tracer returns exactly two loops: the forward
(even-id) loop and the backward (odd-id) loop. -/
lemma cycle_loops {vertices : List (α × α)} (hne : vertices ≠ []) :
    obtain_closed_loops (define_edges vertices)
        (List.range (numHalfedges (define_edges vertices)))
      = [(List.range vertices.length).map (fun k => 2 * k),
         (List.range vertices.length).map
           (fun k => 2 * ((k * (vertices.length - 1)) % vertices.length) + 1)] := by
  set n := vertices.length with hn
  have hn1 : 1 ≤ n := by
    rw [hn]
    exact List.length_pos.mpr hne
  have hnum : numHalfedges (define_edges vertices) = 2 * n := cycle_numHalfedges hne
  have htr0 := cycle_trace_fwd hne
  have htr1 := cycle_trace_bwd hne
  rw [← hn] at htr0 htr1
  have hsplit : List.range (numHalfedges (define_edges vertices))
      = 0 :: 1 :: (List.range (numHalfedges (define_edges vertices) - 2)).map
          (fun k => k + 2) :=
    range_split_two (by omega)
  unfold obtain_closed_loops
  rw [hsplit, List.foldl_cons]
  rw [if_neg (by simp)]
  rw [List.foldl_cons]
  rw [if_neg ?mem1]
  case mem1 =>
    simp only [List.nil_append, List.flatten_cons, List.flatten_nil, List.append_nil,
      htr0, List.mem_map, List.mem_range]
    rintro ⟨k, -, hk2⟩
    omega
  rw [foldl_const_of_mem _ _ ?memrest]
  case memrest =>
    intro h hmem
    rw [List.mem_map] at hmem
    obtain ⟨k, hk, rfl⟩ := hmem
    rw [List.mem_range, hnum] at hk
    simp only [List.cons_append, List.nil_append, List.flatten_cons, List.flatten_nil,
      List.append_nil, List.mem_append, htr0, htr1, List.mem_map, List.mem_range]
    rcases Nat.mod_two_eq_zero_or_one (k + 2) with hpar | hpar
    · exact Or.inl ⟨(k + 2) / 2, by omega, by omega⟩
    · refine Or.inr ⟨(n - (k + 2) / 2) % n, Nat.mod_lt _ (by omega), ?_⟩
      have hj : (k + 2) / 2 < n := by omega
      rw [cycle_bwd_surjective hj]
      omega
  rw [List.nil_append, htr0, htr1]
  rfl

lemma getD_map_range {β : Type} (f : ℕ → β) {i n : ℕ} (hi : i < n) (d : β) :
    ((List.range n).map f).getD i d = f i := by
  rw [List.getD_eq_getElem _ _ (by simpa using hi), List.getElem_map, List.getElem_range]

lemma getD_range_self {β : Type} (l : List β) (d : β) :
    (List.range l.length).map (fun i => l.getD i d) = l := by
  induction l with
  | nil => rfl
  | cons x xs ih =>
    rw [List.length_cons, List.range_succ_eq_map, List.map_cons, List.map_map]
    have hcomp : ((fun i => (x :: xs).getD i d) ∘ Nat.succ)
        = fun i => xs.getD i d := by
      funext i
      simp [Function.comp_apply]
    rw [hcomp, ih]
    rfl

/-- The forward loop reads the input vertex sequence verbatim. -/
lemma cycle_loopCoords_fwd {vertices : List (α × α)} (hne : vertices ≠ []) :
    loopCoords vertices (define_edges vertices)
        ((List.range vertices.length).map (fun k => 2 * k)) = vertices := by
  unfold loopCoords
  rw [List.map_map]
  have hcongr : (List.range vertices.length).map
        ((fun h => vertices.getD (originOf (define_edges vertices) h) (0, 0))
          ∘ (fun k => 2 * k))
      = (List.range vertices.length).map (fun i => vertices.getD i (0, 0)) := by
    refine List.map_congr_left ?_
    intro k hk
    rw [List.mem_range] at hk
    simp only [Function.comp_apply]
    rw [cycle_originOf_fwd hk]
  rw [hcongr, getD_range_self]

/-- The backward loop reads the vertex sequence through the reversed cyclic
index `(k * (n - 1) + 1) % n`. -/
lemma cycle_loopCoords_bwd {vertices : List (α × α)} (hne : vertices ≠ []) :
    loopCoords vertices (define_edges vertices)
        ((List.range vertices.length).map
          (fun k => 2 * ((k * (vertices.length - 1)) % vertices.length) + 1))
      = (List.range vertices.length).map
          (fun k => vertices.getD ((k * (vertices.length - 1) + 1) % vertices.length)
            (0, 0)) := by
  have hn1 : 1 ≤ vertices.length := List.length_pos.mpr hne
  unfold loopCoords
  rw [List.map_map]
  refine List.map_congr_left ?_
  intro k hk
  rw [List.mem_range] at hk
  simp only [Function.comp_apply]
  rw [cycle_originOf_bwd (Nat.mod_lt _ (by omega)), mod_succ_mod]

lemma cycle_g_succ {n i : ℕ} (hn1 : 1 ≤ n) (hi : i < n) :
    (((i + 1) % n) * (n - 1) + 1) % n = (n - i) % n := by
  have h1 : (((i + 1) % n) * (n - 1) + 1) % n = ((i + 1) * (n - 1) + 1) % n := by
    rw [← Nat.mod_add_mod, mod_mul_mod_left, Nat.mod_add_mod]
  obtain ⟨e, he⟩ : ∃ e, n = i + (e + 1) := ⟨n - i - 1, by omega⟩
  have h2 : (i + 1) * (n - 1) + 1 = n * i + (n - i) := by
    have hna : n - 1 = i + e := by omega
    have hnb : n - i = e + 1 := by omega
    rw [hna, hnb, he]
    ring
  rw [h1, h2, Nat.mul_add_mod]

lemma cycle_g_self {n i : ℕ} (hn1 : 1 ≤ n) (hi : i < n) :
    (i * (n - 1) + 1) % n = ((n - i) % n + 1) % n := by
  rw [mod_succ_mod]
  by_cases hi0 : i = 0
  · subst hi0
    rw [Nat.zero_mul, Nat.zero_add, Nat.sub_zero, Nat.add_mod_left]
  · obtain ⟨j, rfl⟩ : ∃ j, i = j + 1 := ⟨i - 1, by omega⟩
    obtain ⟨e, he⟩ : ∃ e, n = (j + 1) + e := ⟨n - (j + 1), by omega⟩
    have he1 : 1 ≤ e := by omega
    have h2 : (j + 1) * (n - 1) + 1 = n * j + (n - (j + 1) + 1) := by
      obtain ⟨d, rfl⟩ : ∃ d, e = d + 1 := ⟨e - 1, by omega⟩
      have hna : n - 1 = j + (d + 1) := by omega
      have hnb : n - (j + 1) + 1 = d + 2 := by omega
      rw [hna, hnb, he]
      ring
    rw [h2, Nat.mul_add_mod, show n - (j + 1) + 1 = n - j by omega]

lemma sigma_invol {n i : ℕ} (hn1 : 1 ≤ n) (hi : i < n) :
    (n - (n - i) % n) % n = i := by
  by_cases hi0 : i = 0
  · subst hi0
    rw [Nat.sub_zero, Nat.mod_self, Nat.sub_zero, Nat.mod_self]
  · rw [Nat.mod_eq_of_lt (by omega : n - i < n), show n - (n - i) = i by omega,
      Nat.mod_eq_of_lt hi]

lemma cross_antisymm (p q : α × α) : cross p q = -cross q p := by
  unfold cross
  ring

/-- The backward loop's shoelace sum is exactly the negation of the input's:
the reversed traversal enumerates the same cyclic edges in opposite
orientation. -/
lemma shoelace_bwd {c : List (α × α)} (hne : c ≠ []) :
    shoelaceSum ((List.range c.length).map
        (fun k => c.getD ((k * (c.length - 1) + 1) % c.length) (0, 0)))
      = -shoelaceSum c := by
  set n := c.length with hn
  have hn1 : 1 ≤ n := by
    rw [hn]
    exact List.length_pos.mpr hne
  unfold shoelaceSum
  rw [List.length_map, List.length_range, ← hn]
  rw [← Finset.sum_neg_distrib]
  refine Finset.sum_nbij' (fun i => (n - i) % n) (fun i => (n - i) % n) ?_ ?_ ?_ ?_ ?_
  · intro a ha
    rw [Finset.mem_range] at ha ⊢
    exact Nat.mod_lt _ (by omega)
  · intro a ha
    rw [Finset.mem_range] at ha ⊢
    exact Nat.mod_lt _ (by omega)
  · intro a ha
    rw [Finset.mem_range] at ha
    exact sigma_invol hn1 ha
  · intro a ha
    rw [Finset.mem_range] at ha
    exact sigma_invol hn1 ha
  · intro a ha
    rw [Finset.mem_range] at ha
    have hga : ((List.range n).map
        (fun k => c.getD ((k * (n - 1) + 1) % n) (0, 0))).getD a (0, 0)
        = c.getD ((a * (n - 1) + 1) % n) (0, 0) := getD_map_range _ ha _
    have hga1 : ((List.range n).map
        (fun k => c.getD ((k * (n - 1) + 1) % n) (0, 0))).getD ((a + 1) % n) (0, 0)
        = c.getD ((((a + 1) % n) * (n - 1) + 1) % n) (0, 0) :=
      getD_map_range _ (Nat.mod_lt _ (by omega)) _
    rw [hga, hga1, cycle_g_succ hn1 ha, cycle_g_self hn1 ha]
    rw [cross_antisymm]

/-- Signed areas of the two traced loops of a polygon input: the forward loop
carries the input's signed area, the backward loop its negation. -/
lemma cycle_polygon_areas {vertices : List (α × α)} (hne : vertices ≠ []) :
    polygon_area vertices (define_edges vertices)
        ((List.range vertices.length).map (fun k => 2 * k)) = signedArea vertices ∧
      polygon_area vertices (define_edges vertices)
        ((List.range vertices.length).map
          (fun k => 2 * ((k * (vertices.length - 1)) % vertices.length) + 1))
        = -signedArea vertices := by
  constructor
  · unfold polygon_area
    rw [cycle_loopCoords_fwd hne]
  · unfold polygon_area signedArea
    rw [cycle_loopCoords_bwd hne, shoelace_bwd hne]
    ring

end CycleGraph

section ClaimC3

/-- C3: For every well-formed polygon input — the vertex list wired into a
closed boundary by `define_edges`, each vertex of degree exactly 2, with a
nondegenerate signed area clearing the trivial-loop threshold — `generate`
succeeds and the vertex sequence of the returned Mesh, read in order, has
positive shoelace signed area (counterclockwise), regardless of whether the
input vertex list was ordered clockwise (negative area) or counterclockwise
(positive area). -/
theorem C3_mesh_counterclockwise {α : Type} [LinearOrderedField α]
    (vertices : List (α × α)) (hne : vertices ≠ [])
    (harea : EPSILON ≤ |signedArea vertices|) :
    ∃ m, generate vertices (define_edges vertices) = Except.ok m ∧
      0 < signedArea m.vertices := by
  have heps : (0 : α) < EPSILON := EPSILON_pos
  have hwf := cycle_wellFormed hne
  have hloops := cycle_loops hne
  obtain ⟨hA0, hA1⟩ := cycle_polygon_areas hne
  rcases le_abs.mp harea with hA | hA
  · -- counterclockwise input: the forward loop is kept
    have hfil : (orient_loops vertices (define_edges vertices)
        [(List.range vertices.length).map (fun k => 2 * k),
         (List.range vertices.length).map
           (fun k => 2 * ((k * (vertices.length - 1)) % vertices.length) + 1)]).2.1
        = [(List.range vertices.length).map (fun k => 2 * k)] := by
      simp only [orient_loops, List.filter_cons, List.filter_nil, decide_eq_true_eq]
      rw [if_pos (hA0 ▸ hA), if_neg]
      rw [hA1]
      intro hcontra
      linarith
    have hlen : (orient_loops vertices (define_edges vertices)
        (obtain_closed_loops (define_edges vertices)
          (List.range (numHalfedges (define_edges vertices))))).2.1.length = 1 := by
      rw [hloops, hfil]
      rfl
    obtain ⟨m, hm⟩ := generate_ok_of hwf hlen
    refine ⟨m, hm, ?_⟩
    obtain ⟨_, L, hL, hmesh⟩ := generate_ok_spec hm
    rw [hloops, hfil] at hL
    have hLeq : L = (List.range vertices.length).map (fun k => 2 * k) :=
      (List.cons.injEq _ _ _ _ ▸ hL).1.symm
    rw [hmesh, hLeq]
    show 0 < signedArea (loopCoords vertices (define_edges vertices) _)
    have := hA0
    unfold polygon_area at this
    rw [this]
    linarith
  · -- clockwise input: the backward loop is kept and reads counterclockwise
    have hfil : (orient_loops vertices (define_edges vertices)
        [(List.range vertices.length).map (fun k => 2 * k),
         (List.range vertices.length).map
           (fun k => 2 * ((k * (vertices.length - 1)) % vertices.length) + 1)]).2.1
        = [(List.range vertices.length).map
            (fun k => 2 * ((k * (vertices.length - 1)) % vertices.length) + 1)] := by
      simp only [orient_loops, List.filter_cons, List.filter_nil, decide_eq_true_eq]
      rw [if_neg, if_pos (by rw [hA1]; linarith)]
      rw [hA0]
      intro hcontra
      linarith
    have hlen : (orient_loops vertices (define_edges vertices)
        (obtain_closed_loops (define_edges vertices)
          (List.range (numHalfedges (define_edges vertices))))).2.1.length = 1 := by
      rw [hloops, hfil]
      rfl
    obtain ⟨m, hm⟩ := generate_ok_of hwf hlen
    refine ⟨m, hm, ?_⟩
    obtain ⟨_, L, hL, hmesh⟩ := generate_ok_spec hm
    rw [hloops, hfil] at hL
    have hLeq : L = (List.range vertices.length).map
        (fun k => 2 * ((k * (vertices.length - 1)) % vertices.length) + 1) :=
      (List.cons.injEq _ _ _ _ ▸ hL).1.symm
    rw [hmesh, hLeq]
    show 0 < signedArea (loopCoords vertices (define_edges vertices) _)
    have := hA1
    unfold polygon_area at this
    rw [this]
    linarith

/-- Witness for C3 at a clockwise rectangle input (signed area -40): the
returned mesh still has positive signed area. -/
theorem C3_witness :
    ∃ m, generate [((5 : ℚ), 2), (5, -2), (-5, -2), (-5, 2)]
        (define_edges [((5 : ℚ), 2), (5, -2), (-5, -2), (-5, 2)]) = Except.ok m ∧
      0 < signedArea m.vertices :=
  C3_mesh_counterclockwise [((5 : ℚ), 2), (5, -2), (-5, -2), (-5, 2)]
    (by simp) (by with_unfolding_all decide)

end ClaimC3

section ClaimC6

/-- C6: In `w_mesh`, whenever the target area falls short of the rectangular
approximation `2·b·tf + (h − 2·tf)·tw`, the area difference is replaced by
the fallback `1e-4` and the fillet radius is strictly positive; in every
case the argument of the square root is nonnegative and the computed radius
is nonnegative — never negative (and never an invalid square root of a
negative number, the real-arithmetic reading of "never NaN"). -/
theorem C6_w_mesh_radius_guard (b h tw tf target_area : ℝ) :
    (w_area_diff b h tw tf target_area < 0 →
      w_area_diff_adjusted b h tw tf target_area = 1e-4 ∧
        0 < w_r b h tw tf target_area) ∧
    0 ≤ w_area_diff_adjusted b h tw tf target_area / (2 ^ 2 - Real.pi) ∧
    0 ≤ w_r b h tw tf target_area := by
  have hpi : Real.pi < 3.15 := Real.pi_lt_d2
  have hdenom : (0 : ℝ) < 2 ^ 2 - Real.pi := by norm_num; linarith
  have hadj : 0 ≤ w_area_diff_adjusted b h tw tf target_area := by
    unfold w_area_diff_adjusted
    split
    · norm_num
    · linarith [not_lt.mp (by assumption :
        ¬w_area_diff b h tw tf target_area < 0)]
  refine ⟨?_, div_nonneg hadj hdenom.le, ?_⟩
  · intro hneg
    have hadj_eq : w_area_diff_adjusted b h tw tf target_area = 1e-4 := by
      unfold w_area_diff_adjusted
      rw [if_pos hneg]
    refine ⟨hadj_eq, ?_⟩
    unfold w_r
    rw [hadj_eq]
    have hsqrt : 0 < Real.sqrt ((1e-4 : ℝ) / (2 ^ 2 - Real.pi)) :=
      Real.sqrt_pos.mpr (div_pos (by norm_num) hdenom)
    nlinarith
  · unfold w_r
    have := Real.sqrt_nonneg
      (w_area_diff_adjusted b h tw tf target_area / (2 ^ 2 - Real.pi))
    nlinarith

/-- Witness for C6 at a W14X426-style input where the rectangular
approximation exceeds the target area. -/
theorem C6_witness :
    w_area_diff (1 : ℝ) 1 1 1 0 < 0 ∧
      w_area_diff_adjusted (1 : ℝ) 1 1 1 0 = 1e-4 ∧
      0 < w_r 1 1 1 1 0 ∧ 0 ≤ w_r 1 1 1 1 0 := by
  have h := C6_w_mesh_radius_guard 1 1 1 1 0
  have hneg : w_area_diff (1 : ℝ) 1 1 1 0 < 0 := by norm_num [w_area_diff]
  exact ⟨hneg, (h.1 hneg).1, (h.1 hneg).2, h.2.2⟩

end ClaimC6

section ClaimC4

lemma linspace_length (a b : ℝ) {n : ℕ} (hn : 2 ≤ n) :
    (linspace a b n).length = n := by
  unfold linspace
  rw [if_neg (by omega)]
  rw [List.length_map, List.length_range]

lemma linspace_getD (a b : ℝ) {n k : ℕ} (hn : 2 ≤ n) (hk : k < n) :
    (linspace a b n).getD k 0 = a + (b - a) * (k : ℝ) / ((n : ℝ) - 1) := by
  unfold linspace
  rw [if_neg (by omega)]
  rw [getD_map_range _ hk]

lemma circPoints_length {n : ℕ} (hn : 2 ≤ n) : (circPoints n).length = n := by
  unfold circPoints
  rw [List.length_map, linspace_length _ _ hn]

lemma circPoints_getD {n k : ℕ} (hn : 2 ≤ n) (hk : k < n) :
    (circPoints n).getD k (0, 0)
      = (Real.sin (0 + (2 * Real.pi - 0) * k / ((n : ℝ) - 1)),
         -Real.cos (0 + (2 * Real.pi - 0) * k / ((n : ℝ) - 1))) := by
  unfold circPoints
  have hlen : k < (linspace 0 (2 * Real.pi) n).length := by
    rw [linspace_length _ _ hn]
    exact hk
  rw [List.getD_eq_getElem _ _ (by rw [List.length_map]; exact hlen), List.getElem_map,
    ← List.getD_eq_getElem _ (0 : ℝ) hlen, linspace_getD _ _ hn hk]

/-- The non-seam outer-ring vertices of `HSS_circ_mesh`: the circle samples
scaled by `od` (not `od / 2`). -/
lemma HSS_circ_outer_mid {od tdes : ℝ} {n k : ℕ} (hn : 2 ≤ n) (hk1 : 1 ≤ k)
    (hk2 : k ≤ n - 2) :
    (HSS_circ_vertices od tdes n).getD k (0, 0)
      = (Real.sin (0 + (2 * Real.pi - 0) * k / ((n : ℝ) - 1)) * od,
         -Real.cos (0 + (2 * Real.pi - 0) * k / ((n : ℝ) - 1)) * od) := by
  have hkn : k < n := by omega
  unfold HSS_circ_vertices
  simp only []
  have hlenmap : ((circPoints n).map (fun p => (p.1 * od, p.2 * od))).length = n := by
    rw [List.length_map, circPoints_length hn]
  have hlenouter :
      (seamPerturb EPSILON ((circPoints n).map (fun p => (p.1 * od, p.2 * od)))).length
        = n := by
    unfold seamPerturb
    rw [List.length_mapIdx, hlenmap]
  rw [List.getD_append _ _ _ _ (by rw [hlenouter]; exact hkn)]
  rw [List.getD_eq_getElem _ _ (by rw [hlenouter]; exact hkn)]
  unfold seamPerturb
  rw [List.getElem_mapIdx]
  rw [if_neg (by omega), if_neg (by rw [hlenmap]; omega)]
  rw [List.getElem_map, ← List.getD_eq_getElem _ ((0 : ℝ), (0 : ℝ))
    (by rw [circPoints_length hn]; exact hkn), circPoints_getD hn hkn]

/-- C4 (divergence witness): every non-seam outer-ring vertex generated by
`HSS_circ_mesh` lies at distance `od` from the origin — not `od / 2` as the
documented meaning of `od` ("outside diameter") requires. -/
theorem C4_hss_circ_outer_radius (od tdes : ℝ) (n_pts k : ℕ) (hod : 0 < od)
    (hn : 2 ≤ n_pts) (hk1 : 1 ≤ k) (hk2 : k ≤ n_pts - 2) :
    distOrigin ((HSS_circ_vertices od tdes n_pts).getD k (0, 0)) = od ∧
      od ≠ od / 2 := by
  rw [HSS_circ_outer_mid hn hk1 hk2]
  unfold distOrigin
  constructor
  · have hsum : (Real.sin (0 + (2 * Real.pi - 0) * k / ((n_pts : ℝ) - 1)) * od) ^ 2
        + (-Real.cos (0 + (2 * Real.pi - 0) * k / ((n_pts : ℝ) - 1)) * od) ^ 2
        = od ^ 2 := by
      have hpyth := Real.sin_sq_add_cos_sq
        (0 + (2 * Real.pi - 0) * k / ((n_pts : ℝ) - 1))
      nlinarith [hpyth]
    rw [hsum, Real.sqrt_sq hod.le]
  · intro hcontra
    linarith

/-- Witness for C4 at `od = 2`, `tdes = 1`, `n_pts = 64`, vertex 16: the
outer-ring vertex lies at distance 2 from the origin, twice `od / 2 = 1`. -/
theorem C4_witness :
    distOrigin ((HSS_circ_vertices 2 1 64).getD 16 (0, 0)) = 2 ∧
      (2 : ℝ) ≠ 2 / 2 :=
  C4_hss_circ_outer_radius 2 1 64 16 (by norm_num) (by norm_num) (by norm_num)
    (by norm_num)

end ClaimC4

section LoadCase

/-- Attribute selector for `PointMass.add`'s `kind` argument: the two mass
attributes `mself` and `floor` (the claim concerns exactly these two; any
other string would fail the source's `hasattr` assertion). -/
inductive MassKind
  | mself
  | floor
deriving DecidableEq, Repr

/-- `load_case.PointMass` (src lines 64–77): two six-component mass vectors
in the global coordinate system. -/
structure PointMass where
  mself : List ℚ
  floor : List ℚ
deriving DecidableEq, Repr

/-- `getattr(self, kind)` for the two mass attributes. -/
def PointMass.get (p : PointMass) (kind : MassKind) : List ℚ :=
  match kind with
  | MassKind.mself => p.mself
  | MassKind.floor => p.floor

/-- `PointMass.add` (src lines 79–86): the element-wise sum
`current = [c + o for c, o in zip(current, mass)]` is bound to the local
name `current` and never assigned back to the attribute (there is no
`setattr`, unlike `PointLoad.add`), so the object is returned unchanged. -/
def PointMass.add (p : PointMass) (mass : List ℚ) (kind : MassKind) : PointMass :=
  let current := p.get kind
  let _current := List.zipWith (fun c o => c + o) current mass
  p

/-- `PointMass.total` (src lines 88–92). -/
def PointMass.total (p : PointMass) : List ℚ :=
  List.zipWith (fun o f => o + f) p.mself p.floor

/-- C9: `PointMass.add` has no effect: for any mass list passing the
source's length assertion and either attribute kind, the updated sum is
discarded, both fields are unchanged, and `total()` returns the same value
before and after the call (hence after any number of calls). -/
theorem C9_point_mass_add_discards (p : PointMass) (mass : List ℚ)
    (kind : MassKind) (hlen : mass.length = p.mself.length) :
    p.add mass kind = p ∧
      (p.add mass kind).mself = p.mself ∧
      (p.add mass kind).floor = p.floor ∧
      (p.add mass kind).total = p.total :=
  ⟨rfl, rfl, rfl, rfl⟩

/-- Witness for C9 at a concrete six-component mass. -/
theorem C9_witness :
    PointMass.add ⟨[1, 2, 3, 4, 5, 6], [0, 0, 0, 0, 0, 0]⟩ [9, 9, 9, 9, 9, 9]
        MassKind.mself
      = ⟨[1, 2, 3, 4, 5, 6], [0, 0, 0, 0, 0, 0]⟩ ∧
    (PointMass.add ⟨[1, 2, 3, 4, 5, 6], [0, 0, 0, 0, 0, 0]⟩ [9, 9, 9, 9, 9, 9]
        MassKind.mself).mself = [1, 2, 3, 4, 5, 6] ∧
    (PointMass.add ⟨[1, 2, 3, 4, 5, 6], [0, 0, 0, 0, 0, 0]⟩ [9, 9, 9, 9, 9, 9]
        MassKind.mself).floor = [0, 0, 0, 0, 0, 0] ∧
    (PointMass.add ⟨[1, 2, 3, 4, 5, 6], [0, 0, 0, 0, 0, 0]⟩ [9, 9, 9, 9, 9, 9]
        MassKind.mself).total
      = PointMass.total ⟨[1, 2, 3, 4, 5, 6], [0, 0, 0, 0, 0, 0]⟩ :=
  C9_point_mass_add_discards ⟨[1, 2, 3, 4, 5, 6], [0, 0, 0, 0, 0, 0]⟩
    [9, 9, 9, 9, 9, 9] MassKind.mself rfl

end LoadCase

section Collections

/-- `ComponentAssembly` reduced to what `ComponentAssemblyCollection.add`
reads: its uid and the uids of its external nodes, in collection order. -/
structure ComponentAssembly where
  uid : ℕ
  external_nodes : List ℕ
deriving DecidableEq, Repr

/-- The collection state of `ComponentAssemblyCollection`: the underlying
dict entries (uid-keyed, insertion order) and the connectivity map from
sorted external-uid tuples to assembly uids. -/
structure ComponentAssemblyCollection where
  items : List (ℕ × ComponentAssembly)
  connectivity_map : List (List ℕ × ℕ)
deriving DecidableEq, Repr

/-- `Collection.add` (src/osmg/core/osmg_collections.py lines 33–50): insert
the object under its uid, raising ValueError if that uid already exists.
The mutated dict is returned alongside the outcome, mirroring in-place
mutation. -/
def Collection.add (items : List (ℕ × ComponentAssembly))
    (obj : ComponentAssembly) : List (ℕ × ComponentAssembly) × Except String Unit :=
  if obj.uid ∈ items.map Prod.fst then
    (items, Except.error "uid already exists")
  else (items ++ [(obj.uid, obj)], Except.ok ())

/-- `ComponentAssemblyCollection.add` (src lines 362–399): `super().add(obj)`
runs first and inserts into the dict; only afterwards are the external-node
and connectivity checks performed, each raising ValueError with the
insertion already done.  `tuple(sorted(external_uids))` is modelled with
insertion sort. -/
def ComponentAssemblyCollection.add (c : ComponentAssemblyCollection)
    (obj : ComponentAssembly) : ComponentAssemblyCollection × Except String Unit :=
  match Collection.add c.items obj with
  | (items1, Except.error e) => ({ c with items := items1 }, Except.error e)
  | (items1, Except.ok _) =>
    let c1 : ComponentAssemblyCollection := { c with items := items1 }
    if obj.external_nodes = [] then
      (c1, Except.error
        "ComponentAssembly must have external nodes to update connectivity.")
    else
      let external_uids := obj.external_nodes
      if external_uids = [] then
        (c1, Except.error "External nodes must have valid unique IDs.")
      else
        let sorted_uids := external_uids.insertionSort (· ≤ ·)
        if sorted_uids ∈ c1.connectivity_map.map Prod.fst then
          (c1, Except.error "Connectivity information for these nodes already exists.")
        else
          ({ c1 with
              connectivity_map := c1.connectivity_map ++ [(sorted_uids, obj.uid)] },
            Except.ok ())

/-- C10: `ComponentAssemblyCollection.add` is not atomic on error: when the
uid is fresh but the assembly has no external nodes, or its sorted
external-uid tuple already appears in the connectivity map, the call raises
— yet the assembly has already been inserted into the underlying dict, and
the connectivity map is left unchanged. -/
theorem C10_add_not_atomic (c : ComponentAssemblyCollection)
    (obj : ComponentAssembly) (hnew : obj.uid ∉ c.items.map Prod.fst)
    (hfail : obj.external_nodes = [] ∨
      obj.external_nodes.insertionSort (· ≤ ·) ∈ c.connectivity_map.map Prod.fst) :
    (c.add obj).1.items = c.items ++ [(obj.uid, obj)] ∧
      (c.add obj).1.connectivity_map = c.connectivity_map ∧
      ∃ e, (c.add obj).2 = Except.error e := by
  unfold ComponentAssemblyCollection.add Collection.add
  rw [if_neg hnew]
  simp only []
  by_cases hext : obj.external_nodes = []
  · rw [if_pos hext]
    exact ⟨rfl, rfl, _, rfl⟩
  · rw [if_neg hext, if_neg hext]
    have hconn : obj.external_nodes.insertionSort (· ≤ ·)
        ∈ c.connectivity_map.map Prod.fst := by
      rcases hfail with hfl | hfl
      · exact absurd hfl hext
      · exact hfl
    rw [if_pos hconn]
    exact ⟨rfl, rfl, _, rfl⟩

/-- Witness for C10: a fresh assembly whose connectivity tuple collides with
an existing entry is inserted into the dict even though the call errors. -/
theorem C10_witness :
    ((ComponentAssemblyCollection.mk [] [([1, 2], 7)]).add
        (ComponentAssembly.mk 3 [2, 1])).1.items
      = [] ++ [(3, ComponentAssembly.mk 3 [2, 1])] ∧
    ((ComponentAssemblyCollection.mk [] [([1, 2], 7)]).add
        (ComponentAssembly.mk 3 [2, 1])).1.connectivity_map = [([1, 2], 7)] ∧
    ∃ e, ((ComponentAssemblyCollection.mk [] [([1, 2], 7)]).add
        (ComponentAssembly.mk 3 [2, 1])).2 = Except.error e :=
  C10_add_not_atomic (ComponentAssemblyCollection.mk [] [([1, 2], 7)])
    (ComponentAssembly.mk 3 [2, 1]) (by simp) (Or.inr (by decide))

end Collections

section ClaimC7

/-- C7 counterexample: with `b = 2 + 2·EPSILON`, `t = 1`, `ht = 4` the
stated preconditions `b > 2t > 0` and `ht > 2t > 0` hold, yet the inner
half-width `b/2 - t` collides with the seam offset EPSILON and two pairs of
consecutive vertices of `HSS_rect_mesh`'s vertex list coincide — a
zero-length edge. -/
theorem C7_counterexample :
    2 * (1 : ℚ) < 2 + 2 / 1000000 ∧ (0 : ℚ) < 1 ∧ 2 * (1 : ℚ) < 4 ∧
      ¬noDupConsecutive (HSS_rect_vertices (4 : ℚ) (2 + 2 / 1000000) 1) := by
  refine ⟨by norm_num, by norm_num, by norm_num, ?_⟩
  intro hchain
  unfold noDupConsecutive HSS_rect_vertices at hchain
  simp only [List.take, List.cons_append, List.nil_append, List.chain'_cons,
    List.chain'_singleton, and_true, ne_eq, Prod.mk.injEq, not_and,
    true_implies] at hchain
  obtain ⟨-, -, -, -, -, -, h67, -⟩ := hchain
  exact h67 (by norm_num [EPSILON])

/-- Consecutive distinctness for the rectangular hollow section under the
amended preconditions. -/
lemma HSS_rect_noDup {α : Type} [LinearOrderedField α] (ht b t : α)
    (ht0 : 0 < t) (hb : 2 * t < b) (hht : 2 * t < ht)
    (hEa : (EPSILON : α) ≠ b / 2) (hEu : (EPSILON : α) ≠ b / 2 - t) :
    noDupConsecutive (HSS_rect_vertices ht b t) := by
  have hE : (0 : α) < EPSILON := EPSILON_pos
  unfold noDupConsecutive HSS_rect_vertices
  simp only [List.take, List.cons_append, List.nil_append]
  simp only [List.chain'_cons, List.chain'_singleton, and_true, ne_eq,
    Prod.mk.injEq, not_and, true_implies]
  refine ⟨?_, ?_, ?_, ?_, ?_, ?_, ?_, ?_, ?_, ?_, ?_, ?_⟩ <;> intro h1 <;>
    first
      | linarith
      | exact hEa (by linarith)
      | exact hEu (by linarith)

section CircSeam

/-- Two circle samples with distinct angles less than a full turn apart are
distinct points, after any nonzero scaling. -/
lemma sincos_pair_ne {s t a : ℝ} (ha : a ≠ 0) (hst : s ≠ t)
    (hb : |s - t| < 2 * Real.pi) :
    (Real.sin s * a, -Real.cos s * a) ≠ (Real.sin t * a, -Real.cos t * a) := by
  intro heq
  rw [Prod.mk.injEq] at heq
  obtain ⟨h1, h2⟩ := heq
  have hsin : Real.sin s = Real.sin t := mul_right_cancel₀ ha h1
  have hcos : Real.cos s = Real.cos t := by
    have hneg := mul_right_cancel₀ ha h2
    have : -Real.cos s = -Real.cos t := hneg
    linarith
  have hone : Real.cos (s - t) = 1 := by
    rw [Real.cos_sub, hcos, hsin]
    have := Real.sin_sq_add_cos_sq t
    nlinarith
  rw [abs_lt] at hb
  rw [Real.cos_eq_one_iff_of_lt_of_lt (by linarith) (by linarith)] at hone
  exact hst (sub_eq_zero.mp hone)

/-- The interior sample angles of `linspace 0 2π n` lie strictly between `0`
and `2π`, so their cosine is not 1. -/
lemma cos_circ_angle_ne_one {n k : ℕ} (hn : 2 ≤ n) (hk1 : 1 ≤ k)
    (hk2 : k ≤ n - 2) :
    Real.cos (0 + (2 * Real.pi - 0) * (k : ℝ) / ((n : ℝ) - 1)) ≠ 1 := by
  intro hone
  have hn2 : (2 : ℝ) ≤ (n : ℝ) := by exact_mod_cast hn
  have hD : (0 : ℝ) < (n : ℝ) - 1 := by linarith
  have hk1' : (1 : ℝ) ≤ (k : ℝ) := by exact_mod_cast hk1
  have hk2' : (k : ℝ) ≤ (n : ℝ) - 2 := by
    have : (k : ℝ) ≤ ((n - 2 : ℕ) : ℝ) := by exact_mod_cast hk2
    rw [Nat.cast_sub (by omega)] at this
    simpa using this
  have hpi := Real.pi_pos
  have hpos : 0 < (2 * Real.pi - 0) * (k : ℝ) / ((n : ℝ) - 1) := by
    apply div_pos
    · nlinarith
    · exact hD
  have hlt : (2 * Real.pi - 0) * (k : ℝ) / ((n : ℝ) - 1) < 2 * Real.pi := by
    rw [div_lt_iff hD]
    nlinarith
  rw [show (0 : ℝ) + (2 * Real.pi - 0) * (k : ℝ) / ((n : ℝ) - 1)
      = (2 * Real.pi - 0) * (k : ℝ) / ((n : ℝ) - 1) by ring] at hone
  rw [Real.cos_eq_one_iff_of_lt_of_lt (by linarith) hlt] at hone
  linarith

/-- Adjacent sample angles differ, and by less than a full turn when
`n ≥ 3`. -/
lemma circ_angle_step {n i : ℕ} (hn : 2 ≤ n) :
    (0 + (2 * Real.pi - 0) * ((i + 1 : ℕ) : ℝ) / ((n : ℝ) - 1))
        - (0 + (2 * Real.pi - 0) * (i : ℝ) / ((n : ℝ) - 1))
      = 2 * Real.pi / ((n : ℝ) - 1) := by
  have hn2 : (2 : ℝ) ≤ (n : ℝ) := by exact_mod_cast hn
  have hD : ((n : ℝ) - 1) ≠ 0 := by linarith
  push_cast
  field_simp
  ring

/-- Index formula for a seam-perturbed scaled circle ring. -/
lemma ring_getD {a e : ℝ} {n k : ℕ} (hn : 2 ≤ n) (hk : k < n) :
    (seamPerturb e ((circPoints n).map (fun p => (p.1 * a, p.2 * a)))).getD k (0, 0)
      = (Real.sin (0 + (2 * Real.pi - 0) * (k : ℝ) / ((n : ℝ) - 1)) * a
            + (if k = 0 then e else if k = n - 1 then -e else 0),
         -Real.cos (0 + (2 * Real.pi - 0) * (k : ℝ) / ((n : ℝ) - 1)) * a) := by
  have hlenmap : ((circPoints n).map (fun p => (p.1 * a, p.2 * a))).length = n := by
    rw [List.length_map, circPoints_length hn]
  have hlen : (seamPerturb e ((circPoints n).map (fun p => (p.1 * a, p.2 * a)))).length
      = n := by
    unfold seamPerturb
    rw [List.length_mapIdx, hlenmap]
  rw [List.getD_eq_getElem _ _ (by rw [hlen]; exact hk)]
  unfold seamPerturb
  rw [List.getElem_mapIdx]
  by_cases hk0 : k = 0
  · rw [if_pos hk0, if_neg (by rw [hlenmap]; omega), List.getElem_map,
      ← List.getD_eq_getElem _ ((0 : ℝ), (0 : ℝ))
        (by rw [circPoints_length hn]; exact hk),
      circPoints_getD hn hk]
    rw [if_pos hk0]
  · rw [if_neg hk0]
    by_cases hklast : k = n - 1
    · rw [if_pos (by rw [hlenmap]; exact hklast), List.getElem_map,
        ← List.getD_eq_getElem _ ((0 : ℝ), (0 : ℝ))
          (by rw [circPoints_length hn]; exact hk),
        circPoints_getD hn hk]
      rw [if_neg hk0, if_pos hklast]
      rw [sub_eq_add_neg]
    · rw [if_neg (by rw [hlenmap]; exact hklast), List.getElem_map,
        ← List.getD_eq_getElem _ ((0 : ℝ), (0 : ℝ))
          (by rw [circPoints_length hn]; exact hk),
        circPoints_getD hn hk]
      rw [if_neg hk0, if_neg hklast, add_zero]

/-- Index formula for the reversed (inner) seam-perturbed scaled circle
ring. -/
lemma ring_rev_getD {a e : ℝ} {n k : ℕ} (hn : 2 ≤ n) (hk : k < n) :
    (seamPerturb e (((circPoints n).map (fun p => (p.1 * a, p.2 * a))).reverse)).getD
        k (0, 0)
      = (Real.sin (0 + (2 * Real.pi - 0) * ((n - 1 - k : ℕ) : ℝ) / ((n : ℝ) - 1)) * a
            + (if k = 0 then e else if k = n - 1 then -e else 0),
         -Real.cos (0 + (2 * Real.pi - 0) * ((n - 1 - k : ℕ) : ℝ) / ((n : ℝ) - 1)) * a)
      := by
  have hlenmap : ((circPoints n).map (fun p => (p.1 * a, p.2 * a))).length = n := by
    rw [List.length_map, circPoints_length hn]
  have hlenrev : (((circPoints n).map (fun p => (p.1 * a, p.2 * a))).reverse).length
      = n := by
    rw [List.length_reverse, hlenmap]
  have hlen : (seamPerturb e
      (((circPoints n).map (fun p => (p.1 * a, p.2 * a))).reverse)).length = n := by
    unfold seamPerturb
    rw [List.length_mapIdx, hlenrev]
  rw [List.getD_eq_getElem _ _ (by rw [hlen]; exact hk)]
  unfold seamPerturb
  rw [List.getElem_mapIdx]
  have hidx : n - 1 - k < n := by omega
  by_cases hk0 : k = 0
  · rw [if_pos hk0, if_neg (by rw [hlenrev]; omega), List.getElem_reverse,
      List.getElem_map, ← List.getD_eq_getElem _ ((0 : ℝ), (0 : ℝ))
        (by rw [circPoints_length hn, hlenmap]; omega),
      show ((circPoints n).map (fun p => (p.1 * a, p.2 * a))).length - 1 - k
        = n - 1 - k by rw [hlenmap],
      circPoints_getD hn hidx]
    rw [if_pos hk0]
  · rw [if_neg hk0]
    by_cases hklast : k = n - 1
    · rw [if_pos (by rw [hlenrev]; exact hklast), List.getElem_reverse,
        List.getElem_map, ← List.getD_eq_getElem _ ((0 : ℝ), (0 : ℝ))
          (by rw [circPoints_length hn, hlenmap]; omega),
        show ((circPoints n).map (fun p => (p.1 * a, p.2 * a))).length - 1 - k
          = n - 1 - k by rw [hlenmap],
        circPoints_getD hn hidx]
      rw [if_neg hk0, if_pos hklast]
      rw [sub_eq_add_neg]
    · rw [if_neg (by rw [hlenrev]; exact hklast), List.getElem_reverse,
        List.getElem_map, ← List.getD_eq_getElem _ ((0 : ℝ), (0 : ℝ))
          (by rw [circPoints_length hn, hlenmap]; omega),
        show ((circPoints n).map (fun p => (p.1 * a, p.2 * a))).length - 1 - k
          = n - 1 - k by rw [hlenmap],
        circPoints_getD hn hidx]
      rw [if_neg hk0, if_neg hklast, add_zero]

lemma ring_length {a e : ℝ} {n : ℕ} (hn : 2 ≤ n) :
    (seamPerturb e ((circPoints n).map (fun p => (p.1 * a, p.2 * a)))).length = n := by
  unfold seamPerturb
  rw [List.length_mapIdx, List.length_map, circPoints_length hn]

lemma ring_rev_length {a e : ℝ} {n : ℕ} (hn : 2 ≤ n) :
    (seamPerturb e (((circPoints n).map (fun p => (p.1 * a, p.2 * a))).reverse)).length
      = n := by
  unfold seamPerturb
  rw [List.length_mapIdx, List.length_reverse, List.length_map, circPoints_length hn]

/-- Bridge from an indexwise `getD` distinctness statement to `Chain'`. -/
lemma chain'_ne_of_getD {l : List (ℝ × ℝ)}
    (h : ∀ i : ℕ, i + 1 < l.length → l.getD i (0, 0) ≠ l.getD (i + 1) (0, 0)) :
    List.Chain' (fun p q : ℝ × ℝ => p ≠ q) l := by
  rw [List.chain'_iff_get]
  intro i hilt
  have h1 : i < l.length := by omega
  have h2 : i + 1 < l.length := by omega
  have e1 : l.get ⟨i, by omega⟩ = l.getD i (0, 0) := by
    rw [List.get_eq_getElem, ← List.getD_eq_getElem _ _ h1]
  have e2 : l.get ⟨i + 1, by omega⟩ = l.getD (i + 1) (0, 0) := by
    rw [List.get_eq_getElem, ← List.getD_eq_getElem _ _ h2]
  rw [e1, e2]
  exact h i h2

lemma getLast?_eq_getD (l : List (ℝ × ℝ)) (h : 1 ≤ l.length) :
    l.getLast? = some (l.getD (l.length - 1) (0, 0)) := by
  rw [List.getLast?_eq_getElem?, List.getElem?_eq_getElem (by omega),
    List.getD_eq_getElem _ _ (by omega)]

lemma head?_eq_getD (l : List (ℝ × ℝ)) (h : 1 ≤ l.length) :
    l.head? = some (l.getD 0 (0, 0)) := by
  rw [List.head?_eq_getElem?, List.getElem?_eq_getElem (by omega),
    List.getD_eq_getElem _ _ (by omega)]

lemma take_one_eq_getD (l : List (ℝ × ℝ)) (h : 1 ≤ l.length) :
    l.take 1 = [l.getD 0 (0, 0)] := by
  cases l with
  | nil => simp at h
  | cons p rest => rfl

/-- The first sample angle is zero. -/
lemma circ_angle_zero_eq {n m : ℕ} (hm : m = 0) :
    (0 : ℝ) + (2 * Real.pi - 0) * (m : ℝ) / ((n : ℝ) - 1) = 0 := by
  subst hm
  push_cast
  ring

/-- The last sample angle is a full turn. -/
lemma circ_angle_last_eq {n m : ℕ} (hn : 2 ≤ n) (hm : m = n - 1) :
    (0 : ℝ) + (2 * Real.pi - 0) * (m : ℝ) / ((n : ℝ) - 1) = 2 * Real.pi := by
  subst hm
  have hn1 : (1 : ℕ) ≤ n := by omega
  have h2 : (2 : ℝ) ≤ (n : ℝ) := by exact_mod_cast hn
  have hD : ((n : ℝ) - 1) ≠ 0 := by linarith
  rw [Nat.cast_sub hn1, Nat.cast_one, mul_div_assoc, div_self hD]
  ring

/-- Pairs with distinct cosine components are distinct whatever their first
coordinates are. -/
lemma pair_ne_of_cos_ne {a : ℝ} (ha : a ≠ 0) {s t x1 x2 : ℝ}
    (hc : Real.cos s ≠ Real.cos t) :
    ((x1, -Real.cos s * a) : ℝ × ℝ) ≠ (x2, -Real.cos t * a) := by
  intro hq
  rw [Prod.mk.injEq] at hq
  apply hc
  have := mul_right_cancel₀ ha hq.2
  linarith

lemma cos_angle_start_ne_interior {n k m : ℕ} (hn : 2 ≤ n) (hk1 : 1 ≤ k)
    (hk2 : k ≤ n - 2) (hm : m = 0) :
    Real.cos (0 + (2 * Real.pi - 0) * (m : ℝ) / ((n : ℝ) - 1))
      ≠ Real.cos (0 + (2 * Real.pi - 0) * (k : ℝ) / ((n : ℝ) - 1)) := by
  rw [circ_angle_zero_eq hm, Real.cos_zero]
  exact fun h => cos_circ_angle_ne_one hn hk1 hk2 h.symm

lemma cos_angle_interior_ne_last {n k m : ℕ} (hn : 2 ≤ n) (hk1 : 1 ≤ k)
    (hk2 : k ≤ n - 2) (hm : m = n - 1) :
    Real.cos (0 + (2 * Real.pi - 0) * (k : ℝ) / ((n : ℝ) - 1))
      ≠ Real.cos (0 + (2 * Real.pi - 0) * (m : ℝ) / ((n : ℝ) - 1)) := by
  rw [circ_angle_last_eq hn hm, Real.cos_two_pi]
  exact cos_circ_angle_ne_one hn hk1 hk2

/-- The seam-split endpoint samples (angles `0` and `2π`) stay distinct
because their first coordinates are offset by `+e` and `-e`. -/
lemma sin_ends_x_ne {a e : ℝ} (he : e ≠ 0) {n m0 m1 : ℕ} (hn : 2 ≤ n)
    (h0 : m0 = 0) (h1 : m1 = n - 1) (y0 y1 : ℝ) :
    ((Real.sin (0 + (2 * Real.pi - 0) * (m0 : ℝ) / ((n : ℝ) - 1)) * a + e, y0) : ℝ × ℝ)
      ≠ (Real.sin (0 + (2 * Real.pi - 0) * (m1 : ℝ) / ((n : ℝ) - 1)) * a + -e, y1) := by
  rw [circ_angle_zero_eq h0, circ_angle_last_eq hn h1, Real.sin_zero, Real.sin_two_pi]
  intro hq
  rw [Prod.mk.injEq] at hq
  have hx := hq.1
  apply he
  linarith

/-- Mirror of `sin_ends_x_ne` for the reversed ring (angle `2π` first). -/
lemma sin_ends_x_ne_rev {a e : ℝ} (he : e ≠ 0) {n m0 m1 : ℕ} (hn : 2 ≤ n)
    (h0 : m0 = n - 1) (h1 : m1 = 0) (y0 y1 : ℝ) :
    ((Real.sin (0 + (2 * Real.pi - 0) * (m0 : ℝ) / ((n : ℝ) - 1)) * a + e, y0) : ℝ × ℝ)
      ≠ (Real.sin (0 + (2 * Real.pi - 0) * (m1 : ℝ) / ((n : ℝ) - 1)) * a + -e, y1) := by
  rw [circ_angle_zero_eq h1, circ_angle_last_eq hn h0, Real.sin_zero, Real.sin_two_pi]
  intro hq
  rw [Prod.mk.injEq] at hq
  have hx := hq.1
  apply he
  linarith

lemma circ_angle_adj_ne {n i : ℕ} (hn : 2 ≤ n) :
    (0 : ℝ) + (2 * Real.pi - 0) * (i : ℝ) / ((n : ℝ) - 1)
      ≠ 0 + (2 * Real.pi - 0) * ((i + 1 : ℕ) : ℝ) / ((n : ℝ) - 1) := by
  have hn2 : (2 : ℝ) ≤ (n : ℝ) := by exact_mod_cast hn
  have hD : (0 : ℝ) < (n : ℝ) - 1 := by linarith
  have hpi := Real.pi_pos
  have hdiff : ((0 : ℝ) + (2 * Real.pi - 0) * (i : ℝ) / ((n : ℝ) - 1))
      - (0 + (2 * Real.pi - 0) * ((i + 1 : ℕ) : ℝ) / ((n : ℝ) - 1))
      = -(2 * Real.pi / ((n : ℝ) - 1)) := by
    push_cast
    ring
  intro h
  rw [h, sub_self] at hdiff
  have hpos : 0 < 2 * Real.pi / ((n : ℝ) - 1) := div_pos (by linarith) hD
  linarith

lemma circ_angle_adj_abs {n i : ℕ} (hn : 3 ≤ n) :
    |((0 : ℝ) + (2 * Real.pi - 0) * (i : ℝ) / ((n : ℝ) - 1))
        - (0 + (2 * Real.pi - 0) * ((i + 1 : ℕ) : ℝ) / ((n : ℝ) - 1))|
      < 2 * Real.pi := by
  have hn3 : (3 : ℝ) ≤ (n : ℝ) := by exact_mod_cast hn
  have hpi := Real.pi_pos
  have hD : (0 : ℝ) < (n : ℝ) - 1 := by linarith
  have hdiff : ((0 : ℝ) + (2 * Real.pi - 0) * (i : ℝ) / ((n : ℝ) - 1))
      - (0 + (2 * Real.pi - 0) * ((i + 1 : ℕ) : ℝ) / ((n : ℝ) - 1))
      = -(2 * Real.pi / ((n : ℝ) - 1)) := by
    push_cast
    ring
  rw [hdiff, abs_neg, abs_of_pos (div_pos (by linarith) hD), div_lt_iff hD]
  nlinarith

/-- Consecutive vertices of one seam-perturbed circle ring are distinct. -/
lemma ring_chain {a e : ℝ} {n : ℕ} (hn : 2 ≤ n) (ha : a ≠ 0) (he : e ≠ 0) :
    List.Chain' (fun p q : ℝ × ℝ => p ≠ q)
      (seamPerturb e ((circPoints n).map (fun p => (p.1 * a, p.2 * a)))) := by
  apply chain'_ne_of_getD
  intro i hilt
  rw [ring_length hn] at hilt
  have hi : i < n := by omega
  have hi1 : i + 1 < n := by omega
  rw [ring_getD hn hi, ring_getD hn hi1]
  by_cases hi0 : i = 0
  · subst hi0
    rw [if_pos rfl, if_neg (by omega : ¬ 0 + 1 = 0)]
    by_cases hn2 : n = 2
    · rw [if_pos (by omega : 0 + 1 = n - 1)]
      exact sin_ends_x_ne he hn rfl (by omega) _ _
    · rw [if_neg (by omega : ¬ 0 + 1 = n - 1), add_zero]
      exact pair_ne_of_cos_ne ha
        (cos_angle_start_ne_interior hn (by omega) (by omega) rfl)
  · rw [if_neg hi0, if_neg (by omega : ¬ i = n - 1), if_neg (by omega : ¬ i + 1 = 0),
      add_zero]
    by_cases hlast : i + 1 = n - 1
    · rw [if_pos hlast]
      exact pair_ne_of_cos_ne ha
        (cos_angle_interior_ne_last hn (by omega) (by omega) hlast)
    · rw [if_neg hlast, add_zero]
      exact sincos_pair_ne ha (circ_angle_adj_ne hn) (circ_angle_adj_abs (by omega))

/-- Consecutive vertices of the reversed seam-perturbed circle ring are
distinct. -/
lemma ring_rev_chain {a e : ℝ} {n : ℕ} (hn : 2 ≤ n) (ha : a ≠ 0) (he : e ≠ 0) :
    List.Chain' (fun p q : ℝ × ℝ => p ≠ q)
      (seamPerturb e (((circPoints n).map (fun p => (p.1 * a, p.2 * a))).reverse)) := by
  apply chain'_ne_of_getD
  intro i hilt
  rw [ring_rev_length hn] at hilt
  have hi : i < n := by omega
  have hi1 : i + 1 < n := by omega
  rw [ring_rev_getD hn hi, ring_rev_getD hn hi1]
  by_cases hi0 : i = 0
  · subst hi0
    rw [if_pos rfl, if_neg (by omega : ¬ 0 + 1 = 0)]
    by_cases hn2 : n = 2
    · rw [if_pos (by omega : 0 + 1 = n - 1)]
      exact sin_ends_x_ne_rev he hn (by omega) (by omega) _ _
    · rw [if_neg (by omega : ¬ 0 + 1 = n - 1), add_zero]
      exact pair_ne_of_cos_ne ha
        ((cos_angle_interior_ne_last hn (by omega) (by omega) (by omega)).symm)
  · rw [if_neg hi0, if_neg (by omega : ¬ i = n - 1), if_neg (by omega : ¬ i + 1 = 0),
      add_zero]
    by_cases hlast : i + 1 = n - 1
    · rw [if_pos hlast]
      exact pair_ne_of_cos_ne ha
        ((cos_angle_start_ne_interior hn (by omega) (by omega) (by omega)).symm)
    · rw [if_neg hlast, add_zero]
      rw [show n - 1 - i = (n - 1 - (i + 1)) + 1 from by omega]
      exact sincos_pair_ne ha ((circ_angle_adj_ne hn).symm)
        (by rw [abs_sub_comm]; exact circ_angle_adj_abs (by omega))

/-- Consecutive distinctness for the circular hollow section: the claim's
stated preconditions `od > tdes > 0`, `n_pts ≥ 2` suffice. -/
lemma HSS_circ_noDup {od tdes : ℝ} {n : ℕ} (htd : 0 < tdes) (hod : tdes < od)
    (hn : 2 ≤ n) : noDupConsecutive (HSS_circ_vertices od tdes n) := by
  have hE : (0 : ℝ) < EPSILON := EPSILON_pos
  have hodne : od ≠ 0 := by linarith
  have hrne : od - tdes ≠ 0 := ne_of_gt (by linarith)
  have hEne : (EPSILON : ℝ) ≠ 0 := ne_of_gt hE
  have hEnegne : (-EPSILON : ℝ) ≠ 0 := neg_ne_zero.mpr hEne
  unfold noDupConsecutive HSS_circ_vertices
  simp only []
  rw [List.take_append_of_le_length (by rw [ring_length hn]; omega)]
  rw [take_one_eq_getD _ (by rw [ring_length hn]; omega)]
  rw [List.append_assoc]
  rw [List.chain'_append]
  refine ⟨ring_chain hn hodne hEne, ?_, ?_⟩
  · rw [List.chain'_append]
    refine ⟨ring_rev_chain hn hrne hEnegne, List.chain'_singleton _, ?_⟩
    intro x hx y hy
    rw [Option.mem_def] at hx hy
    rw [getLast?_eq_getD _ (by rw [ring_rev_length hn]; omega)] at hx
    rw [ring_rev_length hn] at hx
    rw [Option.some.injEq] at hx
    rw [List.head?_cons, Option.some.injEq] at hy
    subst hx
    subst hy
    rw [ring_rev_getD hn (by omega : n - 1 < n), ring_getD hn (by omega : 0 < n)]
    rw [if_neg (by omega : ¬ n - 1 = 0), if_pos (rfl : n - 1 = n - 1)]
    rw [if_pos (rfl : (0 : ℕ) = 0)]
    rw [circ_angle_zero_eq (by omega : n - 1 - (n - 1) = 0),
      circ_angle_zero_eq (rfl : (0 : ℕ) = 0)]
    simp only [Real.cos_zero]
    intro hq
    rw [Prod.mk.injEq] at hq
    have hy2 := hq.2
    linarith
  · intro x hx y hy
    rw [Option.mem_def] at hx hy
    rw [getLast?_eq_getD _ (by rw [ring_length hn]; omega)] at hx
    rw [ring_length hn] at hx
    rw [Option.some.injEq] at hx
    rw [head?_eq_getD _
      (by rw [List.length_append, ring_rev_length hn]; omega)] at hy
    rw [List.getD_append _ _ _ _ (by rw [ring_rev_length hn]; omega)] at hy
    rw [Option.some.injEq] at hy
    subst hx
    subst hy
    rw [ring_getD hn (by omega : n - 1 < n), ring_rev_getD hn (by omega : 0 < n)]
    rw [if_neg (by omega : ¬ n - 1 = 0), if_pos (rfl : n - 1 = n - 1)]
    rw [if_pos (rfl : (0 : ℕ) = 0)]
    rw [circ_angle_last_eq hn (rfl : n - 1 = n - 1),
      circ_angle_last_eq hn (by omega : n - 1 - 0 = n - 1)]
    simp only [Real.cos_two_pi]
    intro hq
    rw [Prod.mk.injEq] at hq
    have hy2 := hq.2
    linarith

end CircSeam

/-- C7 (amended): the seam-epsilon perturbation does make every pair of
consecutive vertices (wrap-around included) distinct, for `HSS_circ_mesh`
exactly under the claim's preconditions `od > tdes > 0`, `n_pts ≥ 2`, but for
`HSS_rect_mesh` only under the additional hypotheses `EPSILON ≠ b/2` and
`EPSILON ≠ b/2 - t` ruling out the seam offset colliding with the outer and
inner half-widths (see `C7_counterexample` for the collision). -/
theorem C7_amended :
    (∀ ht b t : ℚ, 0 < t → 2 * t < b → 2 * t < ht →
        (EPSILON : ℚ) ≠ b / 2 → (EPSILON : ℚ) ≠ b / 2 - t →
        noDupConsecutive (HSS_rect_vertices ht b t)) ∧
    (∀ (od tdes : ℝ) (n_pts : ℕ), 0 < tdes → tdes < od → 2 ≤ n_pts →
        noDupConsecutive (HSS_circ_vertices od tdes n_pts)) :=
  ⟨fun ht b t h1 h2 h3 h4 h5 => HSS_rect_noDup ht b t h1 h2 h3 h4 h5,
   fun _ _ _ h1 h2 h3 => HSS_circ_noDup h1 h2 h3⟩

end ClaimC7

end Osmg
